import Mathlib

/-!
Verification of the transcript data model, segment splitter and formatters
of the video-transcription repository (`video_editor/models.py`,
`video_editor/segmenter.py`, `video_editor/formatters.py`).

Modelling conventions:
* Python `float` values are modelled as exact rationals (`ℚ`).  Every value a
  Python float can take is a dyadic rational, so each concrete float input has
  an exact image in the model; floating-point rounding inside arithmetic is
  not modelled, mirroring the spec's real-number formulas.
* Python `str` values are modelled as `List Char` (a sequence of unicode
  scalar values).
* `str.strip()` with no arguments is modelled by `strip`, which removes the
  ASCII whitespace characters from both ends (the subset of Python's
  whitespace class that occurs in practice).
* Python exceptions are modelled with `Except`: `ValueError("max_words must
  be greater than 0")` becomes `SplitError.invalidArgument` and
  `ValueError("Word-level timestamps are required ...")` becomes
  `SplitError.missingWordTimestamps`.
-/

namespace VideoEditor

/-- Whitespace test used by `strip` (models Python's `str.strip()` character
class restricted to ASCII). -/
def isSpace (c : Char) : Bool :=
  c = ' ' || c = '\t' || c = '\n' || c = '\r' || c = '\x0b' || c = '\x0c'

/-- Model of Python `s.strip()`: drop whitespace from both ends. -/
def strip (s : List Char) : List Char :=
  ((s.dropWhile isSpace).reverse.dropWhile isSpace).reverse

/-- Model of Python `sep.join(pieces)`. -/
def joinWith (sep : List Char) : List (List Char) → List Char
  | [] => []
  | [s] => s
  | s :: rest => s ++ sep ++ joinWith sep rest

/-- Model of `video_editor/models.py` `WordTimestamp`: one recognized word
with timing information. -/
structure WordTimestamp where
  start : ℚ
  end_ : ℚ
  word : List Char
deriving DecidableEq

instance : Inhabited WordTimestamp := ⟨⟨0, 0, []⟩⟩

/-- Model of `video_editor/models.py` `TranscriptSegment`. -/
structure TranscriptSegment where
  start : ℚ
  end_ : ℚ
  text : List Char
  words : Option (List WordTimestamp) := none
deriving DecidableEq

/-- Model of `video_editor/models.py` `Transcript`. -/
structure Transcript where
  segments : List TranscriptSegment
  language : Option (List Char) := none
deriving DecidableEq

/-! ## Segment splitter (`video_editor/segmenter.py`) -/

/-- The two `ValueError`s `split_segments_by_max_words` can raise. -/
inductive SplitError where
  | invalidArgument
  | missingWordTimestamps
deriving DecidableEq

/-- The filter predicate `w.word.strip()` (truthiness of the stripped text). -/
def truthyWord (w : WordTimestamp) : Bool := !(strip w.word).isEmpty

/-- The list `[w for w in segment.words if w.word.strip()]` (with missing
`words` read as the empty list). -/
def filteredWords (seg : TranscriptSegment) : List WordTimestamp :=
  (seg.words.getD []).filter truthyWord

/-- The slices `words[i:i+m]` for `i in range(0, len(words), m)`.  The first
argument is the chunk size `m`; the fuel of the auxiliary function is the
list length, and each step consumes at least one element, so the fuel never
runs out. -/
def chunksOfAux (m : Nat) : Nat → List α → List (List α)
  | _, [] => []
  | 0, l => [l]
  | fuel + 1, x :: xs => (x :: xs.take (m - 1)) :: chunksOfAux m fuel (xs.drop (m - 1))

/-- Chunk a list into consecutive slices of `m` elements (final slice may be
shorter), as the `range(0, len(words), max_words)` loop does for `m ≥ 1`. -/
def chunksOf (m : Nat) (l : List α) : List (List α) := chunksOfAux m l.length l

/-- The body of the inner loop of `split_segments_by_max_words`: build the
output segment for one chunk (`chunk[0].start`, `chunk[-1].end`, the stripped
join of the stripped word texts, and the chunk itself). -/
def mkChunkSeg (chunk : List WordTimestamp) : TranscriptSegment :=
  { start := chunk.headI.start
    end_ := chunk.getLastI.end_
    text := strip (joinWith [' '] (chunk.map fun w => strip w.word))
    words := some chunk }

/-- All output segments contributed by one input segment (empty when all its
words strip to nothing). -/
def segOut (m : Nat) (seg : TranscriptSegment) : List TranscriptSegment :=
  (chunksOf m (filteredWords seg)).map mkChunkSeg

/-- One iteration of the `for segment in segments` loop: raise on falsy
`segment.words` (`None` or the empty list), otherwise filter, skip if empty,
else chunk. -/
def processSegment (m : Nat) (seg : TranscriptSegment) :
    Except SplitError (List TranscriptSegment) :=
  match seg.words with
  | none => .error .missingWordTimestamps
  | some [] => .error .missingWordTimestamps
  | some (w :: ws) =>
    let words := (w :: ws).filter truthyWord
    if words.isEmpty then .ok []
    else .ok ((chunksOf m words).map mkChunkSeg)

/-- The `for segment in segments` loop, accumulating `split_segments`; the
first raising iteration aborts the whole call, so no partial output list ever
escapes. -/
def splitGo (m : Nat) : List TranscriptSegment → Except SplitError (List TranscriptSegment)
  | [] => .ok []
  | seg :: rest =>
    match processSegment m seg with
    | .error e => .error e
    | .ok cur =>
      match splitGo m rest with
      | .error e => .error e
      | .ok tail => .ok (cur ++ tail)

/-- Model of `split_segments_by_max_words` from `video_editor/segmenter.py`. -/
def split_segments_by_max_words (segments : List TranscriptSegment) (max_words : ℤ) :
    Except SplitError (List TranscriptSegment) :=
  if max_words ≤ 0 then .error .invalidArgument
  else splitGo max_words.toNat segments

/-! ## Data model serialization (`to_dict`, `video_editor/models.py`) -/

/-- Generic JSON-like structure, the target of the `to_dict` conversions and
the value space of the JSON serializer/parser. -/
inductive JValue where
  | null
  | bool (b : Bool)
  | num (q : ℚ)
  | str (s : List Char)
  | arr (items : List JValue)
  | obj (fields : List (List Char × JValue))

/-- Model of `WordTimestamp.to_dict`. -/
def WordTimestamp.to_dict (w : WordTimestamp) : JValue :=
  .obj [("start".data, .num w.start), ("end".data, .num w.end_), ("word".data, .str w.word)]

/-- Model of `TranscriptSegment.to_dict`: the `words` key is appended only
when `words` is not `None`. -/
def TranscriptSegment.to_dict (seg : TranscriptSegment) : JValue :=
  .obj ([("start".data, .num seg.start), ("end".data, .num seg.end_),
         ("text".data, .str seg.text)] ++
    match seg.words with
    | none => []
    | some ws => [("words".data, .arr (ws.map WordTimestamp.to_dict))])

/-- Model of `Transcript.to_dict`: the `language` key is always present,
`null` when the language is undetected. -/
def Transcript.to_dict (t : Transcript) : JValue :=
  .obj [("language".data, match t.language with | none => .null | some s => .str s),
        ("segments".data, .arr (t.segments.map TranscriptSegment.to_dict))]

/-! ## Decimal rendering helpers -/

/-- The decimal digit character for `d < 10`. -/
def digitChar (d : Nat) : Char := Char.ofNat ('0'.toNat + d)

/-- Decimal digits of `n`, most significant first; the fuel is an upper bound
on the number of digits (`n` itself is plenty). -/
def natCharsAux (fuel : Nat) (n : Nat) : List Char :=
  match fuel, n with
  | 0, _ => []
  | _, 0 => []
  | fuel + 1, n + 1 => natCharsAux fuel ((n + 1) / 10) ++ [digitChar ((n + 1) % 10)]

/-- Decimal rendering of a natural number (`"0"` for zero). -/
def natChars (n : Nat) : List Char := if n = 0 then ['0'] else natCharsAux n n

/-- Left-pad with `'0'` to width `w` (Python `f"\x7bn:0wd\x7d"` for
nonnegative `n`). -/
def zpad (w : Nat) (s : List Char) : List Char := List.replicate (w - s.length) '0' ++ s

/-- Model of Python `f"\x7bi:0wd\x7d"`: zero-pad to total width `w`, the sign
counting toward the width. -/
def padInt (w : Nat) (i : ℤ) : List Char :=
  if i < 0 then '-' :: zpad (w - 1) (natChars i.natAbs) else zpad w (natChars i.toNat)

/-! ## SRT formatter (`video_editor/formatters.py`) -/

/-- Python `a % b` for `b > 0` (sign of the divisor). -/
def pymod (a b : ℚ) : ℚ := a - b * ⌊a / b⌋

/-- Model of `TranscriptFormatter._seconds_to_srt_time`.  The Python source
uses `int(...)` truncation, but every truncated operand is nonnegative
(`s % 3600`, `s % 60` and `s % 1` take the sign of the positive divisor) or
already an integer (`s // 3600`), so truncation coincides with `⌊·⌋`. -/
def seconds_to_srt_time (s : ℚ) : List Char :=
  padInt 2 ⌊s / 3600⌋ ++ ':' :: padInt 2 ⌊pymod s 3600 / 60⌋ ++ ':' :: padInt 2 ⌊pymod s 60⌋
    ++ ',' :: padInt 3 ⌊pymod s 1 * 1000⌋

/-- The `"start --> end"` line of one SRT entry. -/
def srtTimeLine (seg : TranscriptSegment) : List Char :=
  seconds_to_srt_time seg.start ++ " --> ".data ++ seconds_to_srt_time seg.end_

/-- The `srt_lines` list built by the `for index, segment in enumerate(...)`
loop: four lines per segment (index, time range, text, empty line). -/
def srtLinesAux : Nat → List TranscriptSegment → List (List Char)
  | _, [] => []
  | i, seg :: rest => natChars i :: srtTimeLine seg :: seg.text :: [] :: srtLinesAux (i + 1) rest

/-- Model of `TranscriptFormatter.format_srt`: `"\n".join(srt_lines)`. -/
def format_srt (t : Transcript) : List Char := joinWith ['\n'] (srtLinesAux 1 t.segments)

/-- Spec-side description (for claim C6): one SRT block
`<index>\n<start> --> <end>\n<text>\n\n`. -/
def srtBlock (i : Nat) (seg : TranscriptSegment) : List Char :=
  natChars i ++ '\n' :: srtTimeLine seg ++ '\n' :: seg.text ++ ['\n', '\n']

/-- Spec-side description (for claim C6): the blocks for the segments,
1-based sequential indices. -/
def srtBlocksFrom : Nat → List TranscriptSegment → List (List Char)
  | _, [] => []
  | i, seg :: rest => srtBlock i seg :: srtBlocksFrom (i + 1) rest

/-! ## JSON formatter: model of `json.dumps(..., indent=2, ensure_ascii=False)` -/

/-- Lower-case hex digit for `d < 16`. -/
def hexDigitChar (d : Nat) : Char :=
  if d < 10 then digitChar d else Char.ofNat ('a'.toNat + (d - 10))

/-- How `json.dumps` with `ensure_ascii=False` renders one character inside a
string literal: escape `"`, `\`, and control characters; everything else,
non-ASCII included, passes through literally. -/
def escChar (c : Char) : List Char :=
  if c = '"' then ['\\', '"']
  else if c = '\\' then ['\\', '\\']
  else if c = '\n' then ['\\', 'n']
  else if c = '\t' then ['\\', 't']
  else if c = '\r' then ['\\', 'r']
  else if c = '\x08' then ['\\', 'b']
  else if c = '\x0c' then ['\\', 'f']
  else if c.toNat < 32 then
    '\\' :: 'u' :: '0' :: '0' :: hexDigitChar (c.toNat / 16) :: [hexDigitChar (c.toNat % 16)]
  else [c]

/-- Escape a whole string body. -/
def escStr (s : List Char) : List Char := s.flatMap escChar

/-- A JSON string literal. -/
def renderStr (s : List Char) : List Char := '"' :: escStr s ++ ['"']

/-- Smallest `k ≤ fuel + k₀` (searching upward from `k₀`) such that
`q * 10 ^ k` is an integer. -/
def decExpAux (q : ℚ) : Nat → Nat → Option Nat
  | 0, k => if (q * 10 ^ k).den = 1 then some k else none
  | fuel + 1, k => if (q * 10 ^ k).den = 1 then some k else decExpAux q fuel (k + 1)

/-- Number of decimal fraction digits of `q`, when the expansion terminates.
For a terminating `q` the answer is at most `log2 q.den < q.den`, so the fuel
`q.den` suffices. -/
def decExp (q : ℚ) : Option Nat := decExpAux q q.den 0

/-- Decimal rendering of a nonnegative rational with terminating expansion,
in the style of Python's `repr` on a float: integer part, `'.'`, fraction
digits (at least one, `0` when the value is an integer).  Rationals without
a terminating expansion have no float preimage; for them the search fails
and the integer branch is taken with `k = 0`. -/
def renderPos (q : ℚ) : List Char :=
  let k := (decExp q).getD 0
  let n := (q * 10 ^ k).num.toNat
  if k = 0 then natChars n ++ ['.', '0']
  else natChars (n / 10 ^ k) ++ '.' :: zpad k (natChars (n % 10 ^ k))

/-- Decimal rendering of a rational (model of `repr(float)`). -/
def renderNum (q : ℚ) : List Char := if q < 0 then '-' :: renderPos (-q) else renderPos q

/-- The indentation prefix at nesting depth `d` for `indent=2`. -/
def jindent (d : Nat) : List Char := List.replicate (2 * d) ' '

mutual

/-- Model of `json.dumps(v, indent=2, ensure_ascii=False)` at nesting depth
`d`: containers open with a newline, items are separated by `",\n"`, each on
its own indented line, and the closing bracket sits at the parent depth;
empty containers render as `[]`/`\x7b\x7d` without newlines. -/
def renderVal : Nat → JValue → List Char
  | _, .null => "null".data
  | _, .bool true => "true".data
  | _, .bool false => "false".data
  | _, .num q => renderNum q
  | _, .str s => renderStr s
  | _, .arr [] => "[]".data
  | d, .arr (v :: vs) =>
    '[' :: '\n' :: (renderItems (d + 1) v vs ++ '\n' :: (jindent d ++ [']']))
  | _, .obj [] => "\x7b\x7d".data
  | d, .obj (f :: fs) =>
    '\x7b' :: '\n' :: (renderFields (d + 1) f fs ++ '\n' :: (jindent d ++ ['\x7d']))
termination_by _ v => sizeOf v
decreasing_by all_goals (simp_wf; try omega)

/-- The `",\n"`-separated item lines of a nonempty JSON array. -/
def renderItems : Nat → JValue → List JValue → List Char
  | d, v, [] => jindent d ++ renderVal d v
  | d, v, w :: ws => jindent d ++ renderVal d v ++ ',' :: '\n' :: renderItems d w ws
termination_by _ v vs => sizeOf v + sizeOf vs
decreasing_by all_goals (simp_wf; try omega)

/-- The `",\n"`-separated member lines of a nonempty JSON object. -/
def renderFields : Nat → List Char × JValue → List (List Char × JValue) → List Char
  | d, (k, v), [] => jindent d ++ renderStr k ++ ':' :: ' ' :: renderVal d v
  | d, (k, v), f :: fs =>
    jindent d ++ renderStr k ++ ':' :: ' ' :: renderVal d v ++ ',' :: '\n' :: renderFields d f fs
termination_by _ f fs => sizeOf f + sizeOf fs
decreasing_by all_goals (simp_wf; try omega)

end

/-- Model of `TranscriptFormatter.format_json`:
`json.dumps(transcript.to_dict(), indent=2, ensure_ascii=False)`. -/
def format_json (t : Transcript) : List Char := renderVal 0 t.to_dict

/-! ## Reference JSON parser (model of `json.loads` on the emitted subset) -/

/-- JSON insignificant whitespace. -/
def isJsonWs (c : Char) : Bool := c = ' ' || c = '\t' || c = '\n' || c = '\r'

/-- Lexical tokens of JSON. -/
inductive Tok where
  | lbrace
  | rbrace
  | lbrack
  | rbrack
  | colon
  | comma
  | jnull
  | jtrue
  | jfalse
  | jstr (s : List Char)
  | jnum (q : ℚ)
deriving DecidableEq

/-- Value of a hex digit character. -/
def hexVal (c : Char) : Nat :=
  if c.isDigit then c.toNat - '0'.toNat
  else if 'a' ≤ c ∧ c ≤ 'f' then c.toNat - 'a'.toNat + 10
  else if 'A' ≤ c ∧ c ≤ 'F' then c.toNat - 'A'.toNat + 10
  else 0

/-- Decode a single-character escape (`\"`, `\\`, `\/`, `\n`, `\t`, `\r`,
`\b`, `\f`). -/
def decodeEsc (e : Char) : Option Char :=
  if e = '"' then some '"'
  else if e = '\\' then some '\\'
  else if e = '/' then some '/'
  else if e = 'n' then some '\n'
  else if e = 't' then some '\t'
  else if e = 'r' then some '\r'
  else if e = 'b' then some '\x08'
  else if e = 'f' then some '\x0c'
  else none

/-- Scan the body of a string literal after the opening quote, undoing
escapes, up to and over the closing quote; returns the decoded string and the
remaining input.  (Surrogate-pair `\u` escapes are not combined; the
serializer only ever emits `\u00XX`.) -/
def lexStr : List Char → Option (List Char × List Char)
  | [] => none
  | c :: cs =>
    if c = '"' then some ([], cs)
    else if c = '\\' then
      match cs with
      | [] => none
      | e :: cs' =>
        if e = 'u' then
          match cs' with
          | h1 :: h2 :: h3 :: h4 :: cs'' =>
            (lexStr cs'').map fun sr =>
              (Char.ofNat
                (((hexVal h1 * 16 + hexVal h2) * 16 + hexVal h3) * 16 + hexVal h4) :: sr.1,
               sr.2)
          | _ => none
        else
          match decodeEsc e with
          | some dc => (lexStr cs').map fun sr => (dc :: sr.1, sr.2)
          | none => none
    else (lexStr cs).map fun sr => (c :: sr.1, sr.2)

/-- Numeric value of a nonempty big-endian digit string. -/
def digitsToNat (ds : List Char) : Nat := ds.foldl (fun n c => 10 * n + (c.toNat - '0'.toNat)) 0

/-- Scan an unsigned decimal number `digits['.'digits]` (the subset the
serializer emits; exponents never occur in its output). -/
def lexNumCore (l : List Char) : Option (ℚ × List Char) :=
  match l.span Char.isDigit with
  | (ds, rest) =>
    if ds.isEmpty then none
    else
      match rest with
      | [] => some ((digitsToNat ds : ℚ), rest)
      | c :: l3 =>
        if c = '.' then
          match l3.span Char.isDigit with
          | (fs, rest') =>
            if fs.isEmpty then none
            else some ((digitsToNat ds : ℚ) + (digitsToNat fs : ℚ) / 10 ^ fs.length, rest')
        else some ((digitsToNat ds : ℚ), rest)

/-- Scan a decimal number with optional leading minus. -/
def lexNum (l : List Char) : Option (ℚ × List Char) :=
  match l with
  | [] => none
  | c :: cs =>
    if c = '-' then (lexNumCore cs).map fun qr => (-qr.1, qr.2)
    else lexNumCore (c :: cs)

/-- Tokenizer; the fuel is spent one unit per token or whitespace character,
each of which consumes at least one input character, so fuel equal to the
input length suffices. -/
def tokenizeF : Nat → List Char → Option (List Tok)
  | _, [] => some []
  | 0, _ :: _ => none
  | fuel + 1, c :: cs =>
    if isJsonWs c then tokenizeF fuel cs
    else if c = '\x7b' then (tokenizeF fuel cs).map (Tok.lbrace :: ·)
    else if c = '\x7d' then (tokenizeF fuel cs).map (Tok.rbrace :: ·)
    else if c = '[' then (tokenizeF fuel cs).map (Tok.lbrack :: ·)
    else if c = ']' then (tokenizeF fuel cs).map (Tok.rbrack :: ·)
    else if c = ':' then (tokenizeF fuel cs).map (Tok.colon :: ·)
    else if c = ',' then (tokenizeF fuel cs).map (Tok.comma :: ·)
    else if c = '"' then
      match lexStr cs with
      | some (s, rest) => (tokenizeF fuel rest).map (Tok.jstr s :: ·)
      | none => none
    else if c = '-' || c.isDigit then
      match lexNum (c :: cs) with
      | some (q, rest) => (tokenizeF fuel rest).map (Tok.jnum q :: ·)
      | none => none
    else if c = 'n' then
      if cs.take 3 = ['u', 'l', 'l'] then (tokenizeF fuel (cs.drop 3)).map (Tok.jnull :: ·)
      else none
    else if c = 't' then
      if cs.take 3 = ['r', 'u', 'e'] then (tokenizeF fuel (cs.drop 3)).map (Tok.jtrue :: ·)
      else none
    else if c = 'f' then
      if cs.take 4 = ['a', 'l', 's', 'e'] then (tokenizeF fuel (cs.drop 4)).map (Tok.jfalse :: ·)
      else none
    else none

/-- Tokenize a character stream. -/
def tokenize (l : List Char) : Option (List Tok) := tokenizeF l.length l

mutual

/-- Recursive-descent parser over the token stream; the fuel is spent one
unit per call and each completed production consumes at least as many tokens
as the fuel it spends, so fuel exceeding the token count suffices. -/
def parseVal : Nat → List Tok → Option (JValue × List Tok)
  | 0, _ => none
  | _ + 1, [] => none
  | fuel + 1, t :: ts =>
    match t with
    | .jnull => some (.null, ts)
    | .jtrue => some (.bool true, ts)
    | .jfalse => some (.bool false, ts)
    | .jnum q => some (.num q, ts)
    | .jstr s => some (.str s, ts)
    | .lbrack =>
      if ts.head? = some .rbrack then some (.arr [], ts.tail)
      else (parseItems fuel ts).map fun vr => (.arr vr.1, vr.2)
    | .lbrace =>
      if ts.head? = some .rbrace then some (.obj [], ts.tail)
      else (parseMembers fuel ts).map fun fr => (.obj fr.1, fr.2)
    | _ => none

/-- Parse the items of a nonempty array, consuming the closing bracket. -/
def parseItems : Nat → List Tok → Option (List JValue × List Tok)
  | 0, _ => none
  | fuel + 1, ts =>
    match parseVal fuel ts with
    | some (v, .comma :: ts') => (parseItems fuel ts').map fun vr => (v :: vr.1, vr.2)
    | some (v, .rbrack :: ts') => some ([v], ts')
    | _ => none

/-- Parse the members of a nonempty object, consuming the closing brace. -/
def parseMembers : Nat → List Tok → Option (List (List Char × JValue) × List Tok)
  | 0, _ => none
  | fuel + 1, ts =>
    match ts with
    | .jstr k :: .colon :: ts1 =>
      match parseVal fuel ts1 with
      | some (v, .comma :: ts') => (parseMembers fuel ts').map fun fr => ((k, v) :: fr.1, fr.2)
      | some (v, .rbrace :: ts') => some ([(k, v)], ts')
      | _ => none
    | _ => none

end

/-- Reference JSON parser: tokenize, parse one value, and require that
nothing but whitespace remains (modelling `json.loads`). -/
def parseJSON (l : List Char) : Option JValue :=
  match tokenize l with
  | some tks =>
    match parseVal (tks.length + 1) tks with
    | some (v, []) => some v
    | _ => none
  | none => none

/-- A rational with terminating decimal expansion: the image in `ℚ` of the
Python floats.  Every float is a dyadic rational `m / 2 ^ a` in lowest terms,
and `k = a ≤ 2 ^ a = q.den` turns it into an integer, so every float
satisfies this bounded form. -/
def FinDec (q : ℚ) : Prop := ∃ k ≤ q.den, (q * 10 ^ k).den = 1

/-- A context a rendered number may be followed by: nothing, or a character
that cannot extend the number token. -/
def Boundary (rest : List Char) : Prop :=
  ∀ c, rest.head? = some c → c.isDigit = false ∧ c ≠ '.'

/-- Round-trip property of one JSON value: its rendering tokenizes, at any
depth and in any boundary-respecting context, to a fixed token list; that
token list parses back to exactly the value; and it opens with a token that
cannot be confused with a container close. -/
def RT (v : JValue) : Prop :=
  ∃ tks : List Tok,
    (∀ d rest, Boundary rest →
      tokenize (renderVal d v ++ rest) = (tokenize rest).map (tks ++ ·)) ∧
    (∀ f rest, tks.length < f → parseVal f (tks ++ rest) = some (v, rest)) ∧
    ∃ t ts', tks = t :: ts' ∧ t ≠ .rbrack ∧ t ≠ .rbrace

/-- Every float stored in the transcript has a terminating decimal expansion;
this is automatic for any transcript built from Python floats. -/
def TranscriptFinDec (t : Transcript) : Prop :=
  ∀ seg ∈ t.segments, FinDec seg.start ∧ FinDec seg.end_ ∧
    ∀ w ∈ seg.words.getD [], FinDec w.start ∧ FinDec w.end_

/-- Sample input for concrete instantiations: three words, the first with a
trailing space in its raw text. -/
def sampleWords : List WordTimestamp :=
  [⟨0, 1, ['a', ' ']⟩, ⟨1, 2, ['b']⟩, ⟨2, 3, ['c']⟩]

/-- Sample input segment wrapping `sampleWords`. -/
def sampleSeg : TranscriptSegment :=
  { start := 0, end_ := 3, text := ['a', ' ', 'b', ' ', 'c'], words := some sampleWords }

/-- The output of splitting `[sampleSeg]` with `max_words = 2`. -/
def sampleOut : List TranscriptSegment :=
  [{ start := 0, end_ := 2, text := ['a', ' ', 'b'],
     words := some [⟨0, 1, ['a', ' ']⟩, ⟨1, 2, ['b']⟩] },
   { start := 2, end_ := 3, text := ['c'], words := some [⟨2, 3, ['c']⟩] }]

/-- Sample transcript for the JSON examples: one segment, no word data, no
detected language, with the float values 0.0 and 1.2. -/
def exTranscript : Transcript :=
  { segments := [{ start := 0, end_ := 6 / 5, text := ['h', 'i'], words := none }],
    language := none }

/-! ## Chunking lemmas -/

theorem chunksOfAux_congr (m : Nat) :
    ∀ f g (l : List α), l.length ≤ f → l.length ≤ g →
      chunksOfAux m f l = chunksOfAux m g l := by
  intro f
  induction f with
  | zero =>
    intro g l hf _
    rw [List.length_eq_zero.mp (Nat.le_zero.mp hf)]
    cases g <;> rfl
  | succ f ih =>
    intro g l hf hg
    cases l with
    | nil => cases g <;> rfl
    | cons x xs =>
      cases g with
      | zero => simp at hg
      | succ g =>
        simp only [chunksOfAux]
        rw [ih g (xs.drop (m - 1)) ?_ ?_] <;> simp only [List.length_drop] <;>
          simp only [List.length_cons] at hf hg <;> omega

theorem chunksOf_nil (m : Nat) : chunksOf m ([] : List α) = [] := rfl

theorem chunksOf_cons (m : Nat) (x : α) (xs : List α) :
    chunksOf m (x :: xs) = (x :: xs.take (m - 1)) :: chunksOf m (xs.drop (m - 1)) := by
  show chunksOfAux m (xs.length + 1) (x :: xs) = _
  simp only [chunksOfAux]
  rw [chunksOfAux_congr m xs.length (xs.drop (m - 1)).length (xs.drop (m - 1))
    (by simp only [List.length_drop]; omega) le_rfl]
  rfl

/-- Induction along the recursion of `chunksOf m`. -/
theorem chunks_ind (m : Nat) {P : List α → Prop} (h0 : P [])
    (hstep : ∀ x xs, P (xs.drop (m - 1)) → P (x :: xs)) (l : List α) : P l := by
  have key : ∀ n (l : List α), l.length ≤ n → P l := by
    intro n
    induction n with
    | zero => intro l hl; rw [List.length_eq_zero.mp (Nat.le_zero.mp hl)]; exact h0
    | succ n ih =>
      intro l hl
      cases l with
      | nil => exact h0
      | cons x xs =>
        refine hstep x xs (ih _ ?_)
        simp only [List.length_drop]
        simp only [List.length_cons] at hl
        omega
  exact key l.length l le_rfl

theorem chunksOf_mem (m : Nat) (hm : 1 ≤ m) (l : List α) :
    ∀ c ∈ chunksOf m l, c ≠ [] ∧ c.length ≤ m := by
  refine @chunks_ind α m (fun l => ∀ c ∈ chunksOf m l, c ≠ [] ∧ c.length ≤ m) ?_ ?_ l
  · simp [chunksOf_nil]
  · intro x xs ih c hc
    rw [chunksOf_cons] at hc
    rcases List.mem_cons.mp hc with rfl | hc
    · refine ⟨by simp, ?_⟩
      simp only [List.length_cons, List.length_take]
      omega
    · exact ih c hc

theorem chunksOf_dropLast_length (m : Nat) (hm : 1 ≤ m) (l : List α) :
    ∀ c ∈ (chunksOf m l).dropLast, c.length = m := by
  refine @chunks_ind α m (fun l => ∀ c ∈ (chunksOf m l).dropLast, c.length = m) ?_ ?_ l
  · simp [chunksOf_nil]
  · intro x xs ih c hc
    rw [chunksOf_cons] at hc
    rcases hrest : chunksOf m (xs.drop (m - 1)) with _ | ⟨c', cs'⟩
    · rw [hrest] at hc
      simp at hc
    · rw [hrest, List.dropLast_cons₂] at hc
      rcases List.mem_cons.mp hc with rfl | hc
      · have hne : xs.drop (m - 1) ≠ [] := by
          intro h
          rw [h, chunksOf_nil] at hrest
          cases hrest
        have hlen : m - 1 < xs.length := by
          by_contra h
          push_neg at h
          exact hne (List.drop_eq_nil_of_le h)
        simp only [List.length_cons, List.length_take]
        omega
      · exact ih c (by rw [hrest]; exact hc)

theorem chunksOf_flatten (m : Nat) (hm : 1 ≤ m) (l : List α) :
    (chunksOf m l).flatten = l := by
  refine @chunks_ind α m (fun l => (chunksOf m l).flatten = l) ?_ ?_ l
  · simp [chunksOf_nil]
  · intro x xs ih
    rw [chunksOf_cons]
    simp only [List.flatten_cons, ih, List.cons_append, List.take_append_drop]

theorem chunksOf_subset (m : Nat) (hm : 1 ≤ m) (l : List α) :
    ∀ c ∈ chunksOf m l, ∀ a ∈ c, a ∈ l := fun c hc a ha =>
  (chunksOf_flatten m hm l) ▸ List.mem_flatten.mpr ⟨c, hc, ha⟩

/-! ## Segment splitter lemmas -/

theorem processSegment_ok (m : Nat) (seg : TranscriptSegment) (w : WordTimestamp)
    (ws : List WordTimestamp) (h : seg.words = some (w :: ws)) :
    processSegment m seg = .ok (segOut m seg) := by
  simp only [processSegment, h, segOut, filteredWords, Option.getD_some]
  by_cases he : (w :: ws).filter truthyWord = []
  · simp [he, chunksOf_nil]
  · simp [he]

theorem splitGo_ok (m : Nat) :
    ∀ segs out, splitGo m segs = .ok out →
      out = segs.flatMap (segOut m) := by
  intro segs
  induction segs with
  | nil =>
    intro out h
    simp only [splitGo] at h
    cases h
    rfl
  | cons seg rest ih =>
    intro out h
    simp only [splitGo] at h
    rcases hp : processSegment m seg with e | cur <;> rw [hp] at h
    · cases h
    rcases hr : splitGo m rest with e | tail <;> rw [hr] at h
    · cases h
    cases h
    have hcur : cur = segOut m seg := by
      rcases hw : seg.words with _ | ws
      · rw [processSegment] at hp
        rw [hw] at hp
        cases hp
      rcases ws with _ | ⟨w, ws'⟩
      · rw [processSegment] at hp
        rw [hw] at hp
        cases hp
      · rw [processSegment_ok m seg w ws' hw] at hp
        cases hp
        rfl
    rw [List.flatMap_cons, hcur, ih tail hr]

theorem splitGo_missing (m : Nat) :
    ∀ segs, (∃ seg ∈ segs, seg.words = none ∨ seg.words = some []) →
      splitGo m segs = .error .missingWordTimestamps := by
  intro segs
  induction segs with
  | nil => rintro ⟨seg, hmem, _⟩; simp at hmem
  | cons s rest ih =>
    rintro ⟨seg, hmem, hbad⟩
    rcases List.mem_cons.mp hmem with rfl | hmem
    · rcases hbad with h | h <;> simp [splitGo, processSegment, h]
    · rcases hw : s.words with _ | ws
      · simp [splitGo, processSegment, hw]
      rcases ws with _ | ⟨w, ws'⟩
      · simp [splitGo, processSegment, hw]
      · rw [splitGo, processSegment_ok m s w ws' hw, ih ⟨seg, hmem, hbad⟩]

theorem split_pos_ok (segments : List TranscriptSegment) (max_words : ℤ)
    (out : List TranscriptSegment)
    (hok : split_segments_by_max_words segments max_words = .ok out) :
    0 < max_words ∧ splitGo max_words.toNat segments = .ok out := by
  rw [split_segments_by_max_words] at hok
  by_cases hm : max_words ≤ 0
  · rw [if_pos hm] at hok; cases hok
  · rw [if_neg hm] at hok; exact ⟨by omega, hok⟩

/-- C3: `split_segments_by_max_words` with `max_words ≤ 0` fails with
`InvalidArgument` whatever the input list is (so before the list is
inspected), and with positive `max_words` a segment lacking word data makes
the whole call fail with `MissingWordTimestamps` (an `Except` result carries
no partial output). -/
theorem c3_invalid_argument_and_missing_words (max_words : ℤ)
    (segments : List TranscriptSegment) :
    (max_words ≤ 0 →
      split_segments_by_max_words segments max_words = .error .invalidArgument)
    ∧ (0 < max_words → (∃ seg ∈ segments, seg.words = none) →
      split_segments_by_max_words segments max_words = .error .missingWordTimestamps) := by
  constructor
  · intro h
    simp [split_segments_by_max_words, h]
  · intro hpos hex
    rw [split_segments_by_max_words, if_neg (by omega)]
    obtain ⟨seg, hmem, hnone⟩ := hex
    exact splitGo_missing _ segments ⟨seg, hmem, Or.inl hnone⟩

/-- Witness for C3: `max_words = 0` gives `InvalidArgument` even on a list
whose only segment lacks words, and `max_words = 1` on that list gives
`MissingWordTimestamps`. -/
theorem c3_witness :
    split_segments_by_max_words [{ start := 0, end_ := 1, text := ['h'], words := none }] 0 =
      .error .invalidArgument
    ∧ split_segments_by_max_words [{ start := 0, end_ := 1, text := ['h'], words := none }] 1 =
      .error .missingWordTimestamps := by
  constructor
  · exact (c3_invalid_argument_and_missing_words 0 _).1 (by omega)
  · exact (c3_invalid_argument_and_missing_words 1 _).2 (by omega)
      ⟨_, List.mem_singleton.mpr rfl, rfl⟩

/-- C10: a segment whose `words` field is present but empty is falsy in
Python, so `if not segment.words` raises the same `MissingWordTimestamps`
error as an absent field; the segment is not silently dropped. -/
theorem c10_empty_words_list_error (segments : List TranscriptSegment) (max_words : ℤ)
    (hpos : 0 < max_words) (seg : TranscriptSegment) (hmem : seg ∈ segments)
    (hw : seg.words = some []) :
    split_segments_by_max_words segments max_words = .error .missingWordTimestamps := by
  rw [split_segments_by_max_words, if_neg (by omega)]
  exact splitGo_missing _ segments ⟨seg, hmem, Or.inr hw⟩

/-- Witness for C10: one segment with `words = some []`. -/
theorem c10_witness :
    split_segments_by_max_words [{ start := 0, end_ := 1, text := ['h'], words := some [] }] 2 =
      .error .missingWordTimestamps :=
  c10_empty_words_list_error _ 2 (by omega) _ (List.mem_singleton.mpr rfl) rfl

/-! ## `strip` and `joinWith` lemmas -/

theorem dropWhile_head_not (p : α → Bool) :
    ∀ (l : List α) a, (l.dropWhile p).head? = some a → p a = false := by
  intro l
  induction l with
  | nil => intro a h; cases h
  | cons x xs ih =>
    intro a h
    rw [List.dropWhile_cons] at h
    by_cases hx : p x
    · rw [if_pos hx] at h; exact ih a h
    · rw [if_neg hx] at h
      cases h
      simpa using hx

theorem dropWhile_eq_self (p : α → Bool) (l : List α)
    (h : ∀ a, l.head? = some a → p a = false) : l.dropWhile p = l := by
  cases l with
  | nil => rfl
  | cons x xs =>
    rw [List.dropWhile_cons, h x rfl]
    simp

theorem strip_getLast_not_space (s : List Char) :
    ∀ a, (strip s).getLast? = some a → isSpace a = false := by
  intro a ha
  unfold strip at ha
  rw [List.getLast?_reverse] at ha
  exact dropWhile_head_not isSpace _ a ha

theorem dropWhile_getLast? (p : α → Bool) (l : List α) (h : l.dropWhile p ≠ []) :
    (l.dropWhile p).getLast? = l.getLast? := by
  conv_rhs => rw [← List.takeWhile_append_dropWhile p l]
  rw [List.getLast?_append_of_ne_nil _ h]

theorem strip_head_not_space (s : List Char) :
    ∀ a, (strip s).head? = some a → isSpace a = false := by
  intro a ha
  unfold strip at ha
  rw [List.head?_reverse] at ha
  have hne : (s.dropWhile isSpace).reverse.dropWhile isSpace ≠ [] := by
    intro h
    rw [h] at ha
    cases ha
  rw [dropWhile_getLast? _ _ hne, List.getLast?_reverse] at ha
  exact dropWhile_head_not isSpace _ a ha

theorem strip_eq_self (s : List Char)
    (hh : ∀ a, s.head? = some a → isSpace a = false)
    (hl : ∀ a, s.getLast? = some a → isSpace a = false) : strip s = s := by
  have h2 : s.reverse.dropWhile isSpace = s.reverse := by
    apply dropWhile_eq_self
    intro a ha
    rw [List.head?_reverse] at ha
    exact hl a ha
  unfold strip
  rw [dropWhile_eq_self _ _ hh, h2, List.reverse_reverse]

theorem strip_idem (s : List Char) : strip (strip s) = strip s :=
  strip_eq_self _ (strip_head_not_space s) (strip_getLast_not_space s)

theorem joinWith_head? (sep : List Char) (p : List Char) (rest : List (List Char))
    (hp : p ≠ []) : (joinWith sep (p :: rest)).head? = p.head? := by
  rcases p with _ | ⟨a, as⟩
  · exact absurd rfl hp
  · cases rest <;> rfl

theorem joinWith_ne_nil (sep : List Char) (p : List Char) (rest : List (List Char))
    (hp : p ≠ []) : joinWith sep (p :: rest) ≠ [] := by
  intro h
  have hh := joinWith_head? sep p rest hp
  rw [h] at hh
  rcases p with _ | ⟨a, as⟩
  · exact hp rfl
  · cases hh

theorem joinWith_getLast? (sep : List Char) :
    ∀ (ps : List (List Char)), (∀ p ∈ ps, p ≠ []) → ps ≠ [] →
      ∃ q ∈ ps, (joinWith sep ps).getLast? = q.getLast? := by
  intro ps
  induction ps with
  | nil => intro _ h; exact absurd rfl h
  | cons p rest ih =>
    intro hne _
    cases rest with
    | nil => exact ⟨p, by simp, rfl⟩
    | cons q qs =>
      obtain ⟨r, hr, heq⟩ := ih (fun x hx => hne x (List.mem_cons_of_mem _ hx)) (by simp)
      refine ⟨r, List.mem_cons_of_mem _ hr, ?_⟩
      show ((p ++ sep) ++ joinWith sep (q :: qs)).getLast? = _
      rw [List.getLast?_append_of_ne_nil _ (joinWith_ne_nil sep q qs (hne q (by simp)))]
      exact heq

theorem strip_joinWith (ps : List (List Char)) (hne : ∀ p ∈ ps, p ≠ [])
    (hstrip : ∀ p ∈ ps, strip p = p) :
    strip (joinWith [' '] ps) = joinWith [' '] ps := by
  cases ps with
  | nil => rfl
  | cons p rest =>
    apply strip_eq_self
    · intro a ha
      rw [joinWith_head? [' '] p rest (hne p (by simp))] at ha
      rw [← hstrip p (by simp)] at ha
      exact strip_head_not_space p a ha
    · intro a ha
      obtain ⟨q, hq, heq⟩ := joinWith_getLast? [' '] (p :: rest) hne (by simp)
      rw [heq] at ha
      rw [← hstrip q hq] at ha
      exact strip_getLast_not_space q a ha

theorem mkChunkSeg_eq (chunk : List WordTimestamp)
    (hw : ∀ w ∈ chunk, truthyWord w = true) :
    mkChunkSeg chunk = { start := chunk.headI.start
                         end_ := chunk.getLastI.end_
                         text := joinWith [' '] (chunk.map fun w => strip w.word)
                         words := some chunk } := by
  unfold mkChunkSeg
  simp only [TranscriptSegment.mk.injEq, true_and, and_true]
  apply strip_joinWith
  · intro p hp
    obtain ⟨w, hwmem, rfl⟩ := List.mem_map.mp hp
    have ht := hw w hwmem
    simp only [truthyWord, Bool.not_eq_true'] at ht
    intro hcontra
    rw [hcontra] at ht
    simp at ht
  · intro p hp
    obtain ⟨w, hwmem, rfl⟩ := List.mem_map.mp hp
    exact strip_idem w.word

/-- C1: a successful call chunks each input segment's filtered words
independently and in order, and each output segment is built from its chunk:
`start` from the first chunk word, `end` from the last, `text` the
single-space join of the stripped word texts, `words` the chunk itself. -/
theorem c1_chunk_structure (segments : List TranscriptSegment) (max_words : ℤ)
    (out : List TranscriptSegment)
    (hok : split_segments_by_max_words segments max_words = .ok out) :
    out = segments.flatMap
        (fun seg => (chunksOf max_words.toNat (filteredWords seg)).map mkChunkSeg)
    ∧ ∀ seg ∈ segments, ∀ chunk ∈ chunksOf max_words.toNat (filteredWords seg),
        chunk ≠ [] ∧
        mkChunkSeg chunk = { start := chunk.headI.start
                             end_ := chunk.getLastI.end_
                             text := joinWith [' '] (chunk.map fun w => strip w.word)
                             words := some chunk } := by
  obtain ⟨hpos, hgo⟩ := split_pos_ok segments max_words out hok
  have hm1 : 1 ≤ max_words.toNat := by omega
  refine ⟨splitGo_ok _ segments out hgo, ?_⟩
  intro seg _ chunk hchunk
  refine ⟨(chunksOf_mem _ hm1 _ chunk hchunk).1, ?_⟩
  apply mkChunkSeg_eq
  intro w hwmem
  have hwf : w ∈ filteredWords seg := chunksOf_subset _ hm1 _ chunk hchunk w hwmem
  exact List.of_mem_filter hwf

/-- C2: every output segment of a successful call carries at most
`max_words` words, and for each input segment every non-final chunk has
exactly `max_words` words (only the trailing remainder may be shorter). -/
theorem c2_word_count_bound (segments : List TranscriptSegment) (max_words : ℤ)
    (out : List TranscriptSegment)
    (hok : split_segments_by_max_words segments max_words = .ok out) :
    (∀ o ∈ out, ∃ chunk, o.words = some chunk ∧ chunk.length ≤ max_words.toNat)
    ∧ ∀ seg ∈ segments,
        ∀ chunk ∈ (chunksOf max_words.toNat (filteredWords seg)).dropLast,
          chunk.length = max_words.toNat := by
  obtain ⟨hpos, hgo⟩ := split_pos_ok segments max_words out hok
  have hm1 : 1 ≤ max_words.toNat := by omega
  constructor
  · intro o ho
    rw [splitGo_ok _ segments out hgo] at ho
    obtain ⟨seg, hseg, hmem⟩ := List.mem_flatMap.mp ho
    simp only [segOut] at hmem
    obtain ⟨chunk, hchunk, rfl⟩ := List.mem_map.mp hmem
    exact ⟨chunk, rfl, (chunksOf_mem _ hm1 _ chunk hchunk).2⟩
  · intro seg _ chunk hchunk
    exact chunksOf_dropLast_length _ hm1 _ chunk hchunk

/-- C9: for each input segment, concatenating the `words` lists of its
output segments, in output order, gives back exactly its filtered
(non-empty-after-strip) word list in the original order. -/
theorem c9_order_preservation (segments : List TranscriptSegment) (max_words : ℤ)
    (out : List TranscriptSegment)
    (hok : split_segments_by_max_words segments max_words = .ok out) :
    out = segments.flatMap
        (fun seg => (chunksOf max_words.toNat (filteredWords seg)).map mkChunkSeg)
    ∧ ∀ seg ∈ segments, ∀ ws, seg.words = some ws →
        (((chunksOf max_words.toNat (filteredWords seg)).map mkChunkSeg).flatMap
          fun o => o.words.getD []) = ws.filter truthyWord := by
  obtain ⟨hpos, hgo⟩ := split_pos_ok segments max_words out hok
  have hm1 : 1 ≤ max_words.toNat := by omega
  refine ⟨splitGo_ok _ segments out hgo, ?_⟩
  intro seg _ ws hws
  have h1 : (((chunksOf max_words.toNat (filteredWords seg)).map mkChunkSeg).flatMap
      fun o => o.words.getD []) =
      (chunksOf max_words.toNat (filteredWords seg)).flatten := by
    rw [List.flatMap_map]
    simp [mkChunkSeg, List.flatMap_def]
  rw [h1, chunksOf_flatten _ hm1, filteredWords, hws, Option.getD_some]

theorem processSegment_allspace (m : Nat) (seg : TranscriptSegment) (w : WordTimestamp)
    (ws : List WordTimestamp) (h : seg.words = some (w :: ws))
    (hall : ∀ x ∈ w :: ws, strip x.word = []) : processSegment m seg = .ok [] := by
  have hfil : (w :: ws).filter truthyWord = [] := by
    rw [List.filter_eq_nil_iff]
    intro x hx
    simp [truthyWord, hall x hx]
  simp [processSegment, h, hfil]

theorem splitGo_skip (m : Nat) (seg : TranscriptSegment)
    (hseg : processSegment m seg = .ok []) (pre post : List TranscriptSegment) :
    splitGo m (pre ++ seg :: post) = splitGo m (pre ++ post) := by
  induction pre with
  | nil =>
    simp only [List.nil_append, splitGo, hseg]
    cases splitGo m post <;> simp
  | cons s pre ih =>
    simp only [List.cons_append, splitGo, List.append_eq, ih]

/-- C8: an input segment all of whose words strip to the empty string
contributes no output segments and raises no error: the call behaves exactly
as if the segment were absent, so the output count can be smaller than the
input count. -/
theorem c8_whitespace_segment_dropped (pre post : List TranscriptSegment)
    (seg : TranscriptSegment) (max_words : ℤ) (w : WordTimestamp)
    (ws : List WordTimestamp) (hw : seg.words = some (w :: ws))
    (hall : ∀ x ∈ w :: ws, strip x.word = []) :
    split_segments_by_max_words (pre ++ seg :: post) max_words =
      split_segments_by_max_words (pre ++ post) max_words := by
  unfold split_segments_by_max_words
  by_cases hm : max_words ≤ 0
  · simp [hm]
  · simp only [if_neg hm]
    exact splitGo_skip _ seg (processSegment_allspace _ seg w ws hw hall) pre post

/-- Witness for C1: the two-chunk split of a three-word segment with
`max_words = 2`. -/
theorem c1_witness :
    sampleOut = [sampleSeg].flatMap
      (fun seg => (chunksOf (2 : ℤ).toNat (filteredWords seg)).map mkChunkSeg) :=
  (c1_chunk_structure [sampleSeg] 2 sampleOut rfl).1

/-- Witness for C2: the first output segment of the sample split respects the
bound. -/
theorem c2_witness :
    ∃ chunk,
      (TranscriptSegment.mk 0 2 ['a', ' ', 'b']
          (some [⟨0, 1, ['a', ' ']⟩, ⟨1, 2, ['b']⟩])).words = some chunk ∧
        chunk.length ≤ (2 : ℤ).toNat :=
  (c2_word_count_bound [sampleSeg] 2 sampleOut rfl).1 _
    (by unfold sampleOut; exact List.mem_cons_self _ _)

/-- Witness for C9: the sample split's output word lists concatenate back to
the filtered input words. -/
theorem c9_witness :
    (((chunksOf (2 : ℤ).toNat (filteredWords sampleSeg)).map mkChunkSeg).flatMap
      fun o => o.words.getD []) = sampleWords.filter truthyWord :=
  (c9_order_preservation [sampleSeg] 2 sampleOut rfl).2 sampleSeg
    (List.mem_singleton.mpr rfl) sampleWords rfl

/-- Witness for C8: appending a segment with a single all-whitespace word
changes nothing. -/
theorem c8_witness :
    split_segments_by_max_words
        [sampleSeg, { start := 3, end_ := 4, text := [' '], words := some [⟨3, 4, [' ']⟩] }] 2 =
      split_segments_by_max_words [sampleSeg] 2 :=
  c8_whitespace_segment_dropped [sampleSeg] [] _ 2 ⟨3, 4, [' ']⟩ [] rfl
    (fun x hx => by rw [List.mem_singleton.mp hx]; rfl)

/-! ## Serialization asymmetry (C5) -/

/-- C5: `TranscriptSegment.to_dict` omits the `words` key exactly when the
segment has no word data and includes it whenever `words` is present (an
empty list included), while `Transcript.to_dict` always emits the `language`
key, as an explicit null when the language is undetected. -/
theorem c5_serialization_asymmetry :
    (∀ seg : TranscriptSegment, seg.words = none →
      seg.to_dict = .obj [("start".data, .num seg.start), ("end".data, .num seg.end_),
        ("text".data, .str seg.text)])
    ∧ (∀ seg : TranscriptSegment, ∀ ws, seg.words = some ws →
      seg.to_dict = .obj [("start".data, .num seg.start), ("end".data, .num seg.end_),
        ("text".data, .str seg.text),
        ("words".data, .arr (ws.map WordTimestamp.to_dict))])
    ∧ (∀ t : Transcript, t.language = none →
      t.to_dict = .obj [("language".data, .null),
        ("segments".data, .arr (t.segments.map TranscriptSegment.to_dict))])
    ∧ (∀ t : Transcript, ∀ s, t.language = some s →
      t.to_dict = .obj [("language".data, .str s),
        ("segments".data, .arr (t.segments.map TranscriptSegment.to_dict))]) := by
  refine ⟨?_, ?_, ?_, ?_⟩
  · intro seg h
    simp [TranscriptSegment.to_dict, h]
  · intro seg ws h
    simp [TranscriptSegment.to_dict, h]
  · intro t h
    simp [Transcript.to_dict, h]
  · intro t s h
    simp [Transcript.to_dict, h]

/-- Witness for C5: a wordless segment emits no `words` key; a segment with
an empty word list emits `words: []`; a language-less transcript emits an
explicit null `language`. -/
theorem c5_witness :
    ({ start := 0, end_ := 1.2, text := "hi".data, words := none } :
        TranscriptSegment).to_dict =
      .obj [("start".data, .num 0), ("end".data, .num 1.2), ("text".data, .str "hi".data)]
    ∧ ({ start := 0, end_ := 1.2, text := "hi".data, words := some [] } :
        TranscriptSegment).to_dict =
      .obj [("start".data, .num 0), ("end".data, .num 1.2), ("text".data, .str "hi".data),
        ("words".data, .arr [])]
    ∧ ({ segments := [], language := none } : Transcript).to_dict =
      .obj [("language".data, .null), ("segments".data, .arr [])] :=
  ⟨c5_serialization_asymmetry.1 _ rfl, c5_serialization_asymmetry.2.1 _ [] rfl,
    c5_serialization_asymmetry.2.2.1 _ rfl⟩

/-! ## SRT block structure (C6) -/

theorem srt_join_blocks :
    ∀ (rest : List TranscriptSegment) (i : Nat) (seg : TranscriptSegment),
      joinWith ['\n'] (srtLinesAux i (seg :: rest)) ++ ['\n'] =
        (srtBlocksFrom i (seg :: rest)).flatten := by
  have h2 : ∀ (a : List Char) (l : List (List Char)), l ≠ [] →
      joinWith ['\n'] (a :: l) = a ++ '\n' :: joinWith ['\n'] l := by
    intro a l hl
    cases l with
    | nil => exact absurd rfl hl
    | cons b bs => simp [joinWith]
  intro rest
  induction rest with
  | nil =>
    intro i seg
    simp [srtLinesAux, srtBlocksFrom, srtBlock, joinWith, List.append_assoc]
  | cons r rs ih =>
    intro i seg
    have h1 : srtLinesAux i (seg :: r :: rs) =
        natChars i :: srtTimeLine seg :: seg.text :: [] :: srtLinesAux (i + 1) (r :: rs) := rfl
    rw [h1, h2 _ _ (by simp), h2 _ _ (by simp), h2 _ _ (by simp),
      h2 _ _ (by simp [srtLinesAux])]
    have h3 : (srtBlocksFrom i (seg :: r :: rs)).flatten =
        srtBlock i seg ++ (srtBlocksFrom (i + 1) (r :: rs)).flatten := rfl
    rw [h3, ← ih (i + 1) r]
    simp [srtBlock, List.append_assoc]

/-- C6 (amended): the SRT output is the repeating block pattern
`<index>\n<start> --> <end>\n<text>\n\n` except that the final block ends
with a single newline, not a blank line: appending one `'\n'` to the
formatter's output yields exactly the concatenated blocks.  Indices are
1-based and sequential, independent of the segments. -/
theorem c6_srt_block_structure (t : Transcript) (h : t.segments ≠ []) :
    format_srt t ++ ['\n'] = (srtBlocksFrom 1 t.segments).flatten := by
  rcases hs : t.segments with _ | ⟨seg, rest⟩
  · exact absurd hs h
  · rw [format_srt, hs]
    exact srt_join_blocks rest 1 seg

/-- Counterexample for C6 as stated: on a one-segment transcript the code's
output is not the concatenation of `<index>\n<times>\n<text>\n\n` blocks;
the last block's trailing blank line is missing (the output is one newline
short). -/
theorem c6_counterexample :
    format_srt { segments := [{ start := 0, end_ := 1, text := ['h', 'i'], words := none }],
                 language := none } ≠
      (srtBlocksFrom 1
        [{ start := 0, end_ := 1, text := ['h', 'i'], words := none }]).flatten := by
  intro hEq
  have hl := congrArg List.length hEq
  simp [format_srt, srtLinesAux, srtBlocksFrom, srtBlock, joinWith] at hl

/-- Witness for the amended C6 at a concrete one-segment transcript. -/
theorem c6_witness :
    format_srt { segments := [{ start := 0, end_ := 1, text := ['h', 'i'], words := none }],
                 language := none } ++ ['\n'] =
      (srtBlocksFrom 1
        [{ start := 0, end_ := 1, text := ['h', 'i'], words := none }]).flatten :=
  c6_srt_block_structure _ (by simp)

/-! ## SRT time conversion (C4) -/

/-- C4: for `s ≥ 0` the SRT time conversion renders
`floor(s/3600)`, `floor((s mod 3600)/60)`, `floor(s mod 60)` and
`floor((s mod 1)*1000)` zero-padded to 2/2/2/3 digits; the boundary cases
show plain truncation with no rounding and no carry. -/
theorem c4_srt_time_formula :
    (∀ s : ℚ, 0 ≤ s →
      seconds_to_srt_time s =
        padInt 2 ⌊s / 3600⌋ ++ ':' :: padInt 2 ⌊(s - 3600 * ⌊s / 3600⌋) / 60⌋ ++
          ':' :: padInt 2 ⌊s - 60 * ⌊s / 60⌋⌋ ++ ',' :: padInt 3 ⌊(s - ⌊s⌋) * 1000⌋)
    ∧ seconds_to_srt_time 0 = "00:00:00,000".data
    ∧ seconds_to_srt_time 3661.9994 = "01:01:01,999".data
    ∧ seconds_to_srt_time 59.9996 = "00:00:59,999".data := by
  refine ⟨?_, ?_, ?_, ?_⟩
  · intro s _
    simp only [seconds_to_srt_time, pymod, div_one, one_mul]
  · simp only [seconds_to_srt_time, pymod]
    norm_num
    decide
  · simp only [seconds_to_srt_time, pymod]
    norm_num
    decide
  · simp only [seconds_to_srt_time, pymod]
    norm_num
    decide

/-- Witness for C4: the general formula applied at `s = 5`. -/
theorem c4_witness :
    seconds_to_srt_time 5 =
      padInt 2 ⌊(5 : ℚ) / 3600⌋ ++
        ':' :: padInt 2 ⌊((5 : ℚ) - 3600 * ⌊(5 : ℚ) / 3600⌋) / 60⌋ ++
        ':' :: padInt 2 ⌊(5 : ℚ) - 60 * ⌊(5 : ℚ) / 60⌋⌋ ++
        ',' :: padInt 3 ⌊((5 : ℚ) - ⌊(5 : ℚ)⌋) * 1000⌋ :=
  c4_srt_time_formula.1 5 (by norm_num)

/-! ## Digit string lemmas -/

theorem digitChar_spec : ∀ d < 10, (digitChar d).isDigit = true ∧
    (digitChar d).toNat - '0'.toNat = d := by decide

theorem natCharsAux_zero : ∀ fuel, natCharsAux fuel 0 = [] := by
  intro fuel
  cases fuel <;> rfl

theorem digitsToNat_append_one (a : List Char) (c : Char) :
    digitsToNat (a ++ [c]) = 10 * digitsToNat a + (c.toNat - '0'.toNat) := by
  simp [digitsToNat, List.foldl_append]

theorem natCharsAux_spec :
    ∀ fuel n, 0 < n → n ≤ fuel →
      digitsToNat (natCharsAux fuel n) = n ∧
      (∀ c ∈ natCharsAux fuel n, c.isDigit = true) ∧
      natCharsAux fuel n ≠ [] := by
  intro fuel
  induction fuel with
  | zero => intro n h1 h2; omega
  | succ fuel ih =>
    intro n h1 h2
    rcases n with _ | k
    · omega
    have heq : natCharsAux (fuel + 1) (k + 1) =
        natCharsAux fuel ((k + 1) / 10) ++ [digitChar ((k + 1) % 10)] := rfl
    have hmod := digitChar_spec ((k + 1) % 10) (Nat.mod_lt _ (by omega))
    by_cases hq : (k + 1) / 10 = 0
    · rw [heq, hq, natCharsAux_zero]
      refine ⟨?_, ?_, by simp⟩
      · have hone : digitsToNat [digitChar ((k + 1) % 10)] =
            (digitChar ((k + 1) % 10)).toNat - '0'.toNat := by
          simp [digitsToNat]
        rw [List.nil_append, hone, hmod.2]
        omega
      · intro c hc
        simp at hc
        rw [hc]
        exact hmod.1
    · obtain ⟨ihv, ihd, ihne⟩ := ih ((k + 1) / 10) (by omega)
        (by have := Nat.div_lt_self (show 0 < k + 1 by omega) (show 1 < 10 by omega); omega)
      rw [heq]
      refine ⟨?_, ?_, by simp⟩
      · rw [digitsToNat_append_one, ihv, hmod.2]
        omega
      · intro c hc
        rcases List.mem_append.mp hc with hc | hc
        · exact ihd c hc
        · simp at hc
          rw [hc]
          exact hmod.1

theorem natChars_spec (n : Nat) :
    digitsToNat (natChars n) = n ∧ (∀ c ∈ natChars n, c.isDigit = true) ∧
      natChars n ≠ [] := by
  rw [natChars]
  by_cases h : n = 0
  · subst h
    rw [if_pos rfl]
    refine ⟨by decide, ?_, by simp⟩
    intro c hc
    simp at hc
    rw [hc]
    decide
  · rw [if_neg h]
    exact natCharsAux_spec n n (by omega) le_rfl

theorem natCharsAux_length :
    ∀ fuel k n, n < 10 ^ k → (natCharsAux fuel n).length ≤ k := by
  intro fuel
  induction fuel with
  | zero =>
    intro k n _
    cases n <;> simp [natCharsAux_zero, natCharsAux]
  | succ fuel ih =>
    intro k n h
    rcases n with _ | m
    · simp [natCharsAux_zero]
    · have heq : natCharsAux (fuel + 1) (m + 1) =
          natCharsAux fuel ((m + 1) / 10) ++ [digitChar ((m + 1) % 10)] := rfl
      rw [heq]
      rcases k with _ | k'
      · simp at h
      · simp only [List.length_append, List.length_cons, List.length_nil]
        have h10 : m + 1 < 10 ^ k' * 10 := by
          rw [← pow_succ]
          exact h
        have hdiv : (m + 1) / 10 < 10 ^ k' :=
          (Nat.div_lt_iff_lt_mul (by omega)).mpr h10
        have := ih k' ((m + 1) / 10) hdiv
        omega

theorem natChars_length (k n : Nat) (hk : 0 < k) (h : n < 10 ^ k) :
    (natChars n).length ≤ k := by
  rw [natChars]
  by_cases h0 : n = 0
  · rw [if_pos h0]
    simpa using hk
  · rw [if_neg h0]
    exact natCharsAux_length n k n h

theorem foldl_zeros :
    ∀ j, List.foldl (fun n c => 10 * n + (c.toNat - '0'.toNat)) 0 (List.replicate j '0') = 0 := by
  intro j
  induction j with
  | zero => rfl
  | succ j ih =>
    rw [List.replicate_succ, List.foldl_cons]
    exact ih

theorem digitsToNat_zpad (w : Nat) (s : List Char) :
    digitsToNat (zpad w s) = digitsToNat s := by
  rw [zpad, digitsToNat, List.foldl_append, foldl_zeros]
  rfl

theorem zpad_digits (w : Nat) (s : List Char) (hs : ∀ c ∈ s, c.isDigit = true) :
    ∀ c ∈ zpad w s, c.isDigit = true := by
  intro c hc
  rcases List.mem_append.mp hc with hc | hc
  · rw [List.eq_of_mem_replicate hc]
    decide
  · exact hs c hc

theorem zpad_length (w : Nat) (s : List Char) (h : s.length ≤ w) :
    (zpad w s).length = w := by
  simp [zpad]
  omega

theorem zpad_ne_nil (w : Nat) (s : List Char) (h : 0 < w) : zpad w s ≠ [] := by
  intro hc
  rw [zpad] at hc
  rcases List.append_eq_nil.mp hc with ⟨h1, h2⟩
  rw [h2] at h1
  simp [List.replicate_eq_nil] at h1
  omega

/-! ## `span` lemmas -/

theorem takeWhile_append_all (p : α → Bool) :
    ∀ (a b : List α), (∀ x ∈ a, p x = true) → (∀ x, b.head? = some x → p x = false) →
      (a ++ b).takeWhile p = a ∧ (a ++ b).dropWhile p = b := by
  intro a
  induction a with
  | nil =>
    intro b _ hb
    constructor
    · cases b with
      | nil => rfl
      | cons x xs => simp [List.takeWhile_cons, hb x rfl]
    · exact dropWhile_eq_self p b hb
  | cons y ys ih =>
    intro b ha hb
    have hy : p y = true := ha y (by simp)
    obtain ⟨h1, h2⟩ := ih b (fun x hx => ha x (by simp [hx])) hb
    constructor
    · simp [List.takeWhile_cons, hy, h1]
    · simp [List.dropWhile_cons, hy, h2]

theorem span_append_all (p : α → Bool) (a b : List α) (ha : ∀ x ∈ a, p x = true)
    (hb : ∀ x, b.head? = some x → p x = false) : (a ++ b).span p = (a, b) := by
  rw [List.span_eq_take_drop, (takeWhile_append_all p a b ha hb).1,
    (takeWhile_append_all p a b ha hb).2]

/-! ## Number rendering and parsing lemmas -/

theorem decExpAux_eval (q : ℚ) (k : Nat) (hden : (q * 10 ^ k).den = 1)
    (hmin : ∀ j < k, (q * 10 ^ j).den ≠ 1) :
    ∀ fuel k0, k0 ≤ k → k ≤ k0 + fuel → decExpAux q fuel k0 = some k := by
  intro fuel
  induction fuel with
  | zero =>
    intro k0 h1 h2
    have hk : k0 = k := by omega
    subst hk
    simp only [decExpAux]
    rw [if_pos hden]
  | succ fuel ih =>
    intro k0 h1 h2
    by_cases he : k0 = k
    · subst he
      simp only [decExpAux]
      rw [if_pos hden]
    · have hne : (q * 10 ^ k0).den ≠ 1 := hmin k0 (by omega)
      simp only [decExpAux]
      rw [if_neg hne]
      exact ih (k0 + 1) (by omega) (by omega)

theorem decExp_eq_of (q : ℚ) (k : Nat) (hk : k ≤ q.den) (hden : (q * 10 ^ k).den = 1)
    (hmin : ∀ j < k, (q * 10 ^ j).den ≠ 1) : decExp q = some k :=
  decExpAux_eval q k hden hmin q.den 0 (by omega) (by omega)

theorem decExpAux_found (q : ℚ) :
    ∀ fuel k0, (∃ j, j ≤ fuel ∧ (q * 10 ^ (k0 + j)).den = 1) →
      ∃ k, decExpAux q fuel k0 = some k ∧ (q * 10 ^ k).den = 1 := by
  intro fuel
  induction fuel with
  | zero =>
    rintro k0 ⟨j, hj, hden⟩
    have hj0 : j = 0 := by omega
    subst hj0
    rw [Nat.add_zero] at hden
    refine ⟨k0, ?_, hden⟩
    simp only [decExpAux]
    rw [if_pos hden]
  | succ fuel ih =>
    rintro k0 ⟨j, hj, hden⟩
    by_cases h0 : (q * 10 ^ k0).den = 1
    · refine ⟨k0, ?_, h0⟩
      simp only [decExpAux]
      rw [if_pos h0]
    · have hj0 : j ≠ 0 := by
        intro h
        subst h
        rw [Nat.add_zero] at hden
        exact h0 hden
      obtain ⟨k, hk, hkden⟩ := ih (k0 + 1) ⟨j - 1, by omega, by
        have hrw : k0 + 1 + (j - 1) = k0 + j := by omega
        rw [hrw]
        exact hden⟩
      refine ⟨k, ?_, hkden⟩
      simp only [decExpAux]
      rw [if_neg h0]
      exact hk

theorem decExp_found (q : ℚ) (h : FinDec q) :
    ∃ k, decExp q = some k ∧ (q * 10 ^ k).den = 1 := by
  obtain ⟨k, hk, hden⟩ := h
  exact decExpAux_found q q.den 0 ⟨k, hk, by simpa using hden⟩

theorem q_eq_num_div (q : ℚ) (k : Nat) (hq : 0 ≤ q) (hden : (q * 10 ^ k).den = 1) :
    q = (((q * 10 ^ k).num.toNat : ℕ) : ℚ) / 10 ^ k := by
  have hnn : 0 ≤ (q * 10 ^ k).num := Rat.num_nonneg.mpr (by positivity)
  have hnum : ((q * 10 ^ k).num : ℚ) = q * 10 ^ k := (Rat.den_eq_one_iff _).mp hden
  have hcast : (((q * 10 ^ k).num.toNat : ℕ) : ℚ) = ((q * 10 ^ k).num : ℚ) := by
    exact_mod_cast congrArg (Int.cast : ℤ → ℚ) (Int.toNat_of_nonneg hnn)
  rw [hcast, hnum]
  field_simp

theorem isDigit_ne_dot (c : Char) (h : c.isDigit = true) : ¬(c = '.') := by
  intro he
  subst he
  simp at h

theorem isDigit_ne_minus (c : Char) (h : c.isDigit = true) : ¬(c = '-') := by
  intro he
  subst he
  simp at h

theorem lexNumCore_renderPos (q : ℚ) (hq : 0 ≤ q) (hfd : FinDec q) (rest : List Char)
    (hb : Boundary rest) : lexNumCore (renderPos q ++ rest) = some (q, rest) := by
  obtain ⟨k, hdec, hden⟩ := decExp_found q hfd
  have hqval := q_eq_num_div q k hq hden
  by_cases hk0 : k = 0
  · subst hk0
    have hrp : renderPos q = natChars ((q * 10 ^ 0).num.toNat) ++ ['.', '0'] := by
      simp [renderPos, hdec]
    obtain ⟨hval, hdig, hne⟩ := natChars_spec ((q * 10 ^ 0).num.toNat)
    rw [hrp, lexNumCore, List.append_assoc]
    simp only [List.cons_append, List.nil_append]
    have hsp := span_append_all Char.isDigit (natChars ((q * 10 ^ 0).num.toNat))
      ('.' :: '0' :: rest) hdig (by intro x hx; cases hx; decide)
    rw [hsp]
    simp only [List.isEmpty_iff, if_neg hne]
    have hsp2 := span_append_all Char.isDigit ['0'] rest (by decide)
      (fun x hx => (hb x hx).1)
    rw [List.singleton_append] at hsp2
    rw [hsp2]
    simp only [List.isEmpty_iff, if_neg (by simp : ¬(['0'] = []))]
    rw [hval]
    have hz : ((digitsToNat ['0'] : ℕ) : ℚ) = 0 := by norm_num [digitsToNat]
    rw [hz, hqval]
    norm_num
    omega
  · have h0k : 0 < k := by omega
    obtain ⟨hval1, hdig1, hne1⟩ :=
      natChars_spec ((q * 10 ^ k).num.toNat / 10 ^ k)
    have hmodlt : (q * 10 ^ k).num.toNat % 10 ^ k < 10 ^ k := Nat.mod_lt _ (by positivity)
    have hdig2 : ∀ c ∈ zpad k (natChars ((q * 10 ^ k).num.toNat % 10 ^ k)),
        c.isDigit = true :=
      zpad_digits _ _ (natChars_spec ((q * 10 ^ k).num.toNat % 10 ^ k)).2.1
    have hlen2 : (zpad k (natChars ((q * 10 ^ k).num.toNat % 10 ^ k))).length = k :=
      zpad_length _ _ (natChars_length k _ h0k hmodlt)
    have hne2 : zpad k (natChars ((q * 10 ^ k).num.toNat % 10 ^ k)) ≠ [] :=
      zpad_ne_nil _ _ h0k
    have hrp : renderPos q = natChars ((q * 10 ^ k).num.toNat / 10 ^ k) ++
        '.' :: zpad k (natChars ((q * 10 ^ k).num.toNat % 10 ^ k)) := by
      simp only [renderPos, hdec, Option.getD_some]
      rw [if_neg hk0]
    rw [hrp, lexNumCore, List.append_assoc]
    simp only [List.cons_append]
    have hsp := span_append_all Char.isDigit (natChars ((q * 10 ^ k).num.toNat / 10 ^ k))
      ('.' :: (zpad k (natChars ((q * 10 ^ k).num.toNat % 10 ^ k)) ++ rest)) hdig1
      (by intro x hx; cases hx; decide)
    rw [hsp]
    simp only [List.isEmpty_iff, if_neg hne1]
    have hsp2 := span_append_all Char.isDigit
      (zpad k (natChars ((q * 10 ^ k).num.toNat % 10 ^ k))) rest hdig2
      (fun x hx => (hb x hx).1)
    rw [hsp2]
    simp only [List.isEmpty_iff, if_neg hne2]
    rw [hval1, digitsToNat_zpad, (natChars_spec ((q * 10 ^ k).num.toNat % 10 ^ k)).1, hlen2]
    have hnat : 10 ^ k * ((q * 10 ^ k).num.toNat / 10 ^ k) + (q * 10 ^ k).num.toNat % 10 ^ k =
        (q * 10 ^ k).num.toNat := Nat.div_add_mod _ (10 ^ k)
    have harith : (((q * 10 ^ k).num.toNat / 10 ^ k : ℕ) : ℚ) +
        (((q * 10 ^ k).num.toNat % 10 ^ k : ℕ) : ℚ) / 10 ^ k =
        (((q * 10 ^ k).num.toNat : ℕ) : ℚ) / 10 ^ k := by
      have hc := congrArg (fun m : ℕ => (m : ℚ)) hnat
      push_cast at hc
      field_simp
      linarith
    rw [harith, ← hqval]
    simp

theorem FinDec_neg (q : ℚ) (h : FinDec q) : FinDec (-q) := by
  obtain ⟨k, hk, hden⟩ := h
  refine ⟨k, ?_, ?_⟩
  · rw [Rat.neg_den]
    exact hk
  · rw [show (-q) * 10 ^ k = -(q * 10 ^ k) by ring, Rat.neg_den]
    exact hden

theorem lexNum_not_neg (l : List Char) (h : ∀ c, l.head? = some c → ¬(c = '-')) :
    lexNum l = lexNumCore l := by
  cases l with
  | nil => rfl
  | cons c cs =>
    rw [lexNum, if_neg (h c rfl)]

theorem natChars_append_head_digit (m : Nat) (tail : List Char) (c : Char)
    (h : (natChars m ++ tail).head? = some c) : c.isDigit = true := by
  obtain ⟨_, hdig, hne⟩ := natChars_spec m
  rcases hh : natChars m with _ | ⟨d, ds⟩
  · exact absurd hh hne
  · rw [hh, List.cons_append] at h
    cases h
    exact hdig c (by rw [hh]; simp)

theorem renderPos_ne_nil (q : ℚ) : renderPos q ≠ [] := by
  simp only [renderPos]
  by_cases hk0 : (decExp q).getD 0 = 0 <;> [rw [if_pos hk0]; rw [if_neg hk0]] <;>
    intro hc <;> rcases List.append_eq_nil.mp hc with ⟨h1, h2⟩ <;>
    exact (natChars_spec _).2.2 h1

theorem renderPos_head_digit (q : ℚ) (c : Char)
    (h : (renderPos q).head? = some c) : c.isDigit = true := by
  simp only [renderPos] at h
  by_cases hk0 : (decExp q).getD 0 = 0
  · rw [if_pos hk0] at h
    exact natChars_append_head_digit _ _ c h
  · rw [if_neg hk0] at h
    exact natChars_append_head_digit _ _ c h

theorem lexNum_renderNum (q : ℚ) (hfd : FinDec q) (rest : List Char)
    (hb : Boundary rest) : lexNum (renderNum q ++ rest) = some (q, rest) := by
  rw [renderNum]
  by_cases hq : q < 0
  · rw [if_pos hq, List.cons_append, lexNum, if_pos rfl]
    rw [lexNumCore_renderPos (-q) (by linarith) (FinDec_neg q hfd) rest hb]
    simp
  · rw [if_neg hq]
    rw [lexNum_not_neg _ ?hminus]
    · exact lexNumCore_renderPos q (by linarith) hfd rest hb
    case hminus =>
      intro c hc
      rcases hh : renderPos q with _ | ⟨d, ds⟩
      · exact absurd hh (renderPos_ne_nil q)
      · rw [hh, List.cons_append] at hc
        cases hc
        exact isDigit_ne_minus c (renderPos_head_digit q c (by rw [hh]; rfl))

/-! ## String escaping round trip -/

theorem hexVal_hexDigitChar : ∀ d < 16, hexVal (hexDigitChar d) = d := by decide

theorem lexStr_quote (cs : List Char) : lexStr ('"' :: cs) = some ([], cs) := by
  rw [lexStr.eq_def]
  try dsimp only []
  rw [if_pos rfl]

theorem lexStr_esc_named (e dc : Char) (hdec : decodeEsc e = some dc) (hu : ¬(e = 'u'))
    (cs : List Char) :
    lexStr ('\\' :: e :: cs) = (lexStr cs).map fun sr => (dc :: sr.1, sr.2) := by
  rw [lexStr.eq_def]
  try dsimp only []
  rw [if_neg (by decide), if_pos rfl]
  try dsimp only []
  rw [if_neg hu, hdec]

theorem lexStr_esc_u (h1 h2 h3 h4 : Char) (cs : List Char) :
    lexStr ('\\' :: 'u' :: h1 :: h2 :: h3 :: h4 :: cs) =
      (lexStr cs).map fun sr =>
        (Char.ofNat
          (((hexVal h1 * 16 + hexVal h2) * 16 + hexVal h3) * 16 + hexVal h4) :: sr.1,
         sr.2) := by
  rw [lexStr.eq_def]
  try dsimp only []
  rw [if_neg (by decide), if_pos rfl]
  try dsimp only []
  rw [if_pos rfl]

theorem lexStr_raw (c : Char) (hq : ¬(c = '"')) (hb : ¬(c = '\\')) (cs : List Char) :
    lexStr (c :: cs) = (lexStr cs).map fun sr => (c :: sr.1, sr.2) := by
  rw [lexStr.eq_def]
  try dsimp only []
  rw [if_neg hq, if_neg hb]

theorem lexStr_escStr : ∀ (s : List Char) (rest : List Char),
    lexStr (escStr s ++ '"' :: rest) = some (s, rest) := by
  intro s
  induction s with
  | nil =>
    intro rest
    show lexStr ('"' :: rest) = some ([], rest)
    exact lexStr_quote rest
  | cons c s ih =>
    intro rest
    have hesc : escStr (c :: s) = escChar c ++ escStr s := rfl
    rw [hesc, List.append_assoc, escChar]
    split_ifs with h1 h2 h3 h4 h5 h6 h7 h8
    · subst h1
      rw [List.cons_append, List.cons_append, List.nil_append,
        lexStr_esc_named '"' '"' (by decide) (by decide), ih]
      rfl
    · subst h2
      rw [List.cons_append, List.cons_append, List.nil_append,
        lexStr_esc_named '\\' '\\' (by decide) (by decide), ih]
      rfl
    · subst h3
      rw [List.cons_append, List.cons_append, List.nil_append,
        lexStr_esc_named 'n' '\n' (by decide) (by decide), ih]
      rfl
    · subst h4
      rw [List.cons_append, List.cons_append, List.nil_append,
        lexStr_esc_named 't' '\t' (by decide) (by decide), ih]
      rfl
    · subst h5
      rw [List.cons_append, List.cons_append, List.nil_append,
        lexStr_esc_named 'r' '\r' (by decide) (by decide), ih]
      rfl
    · subst h6
      rw [List.cons_append, List.cons_append, List.nil_append,
        lexStr_esc_named 'b' '\x08' (by decide) (by decide), ih]
      rfl
    · subst h7
      rw [List.cons_append, List.cons_append, List.nil_append,
        lexStr_esc_named 'f' '\x0c' (by decide) (by decide), ih]
      rfl
    · -- the `\u00XX` escape for the remaining control characters
      have hdiv : c.toNat / 16 < 16 := by omega
      have hmod : c.toNat % 16 < 16 := Nat.mod_lt _ (by omega)
      simp only [List.cons_append, List.nil_append]
      rw [lexStr_esc_u, ih]
      have hv : ((hexVal '0' * 16 + hexVal '0') * 16 +
          hexVal (hexDigitChar (c.toNat / 16))) * 16 +
          hexVal (hexDigitChar (c.toNat % 16)) = c.toNat := by
        rw [hexVal_hexDigitChar _ hdiv, hexVal_hexDigitChar _ hmod]
        have hz : hexVal '0' = 0 := by decide
        rw [hz]
        have := Nat.div_add_mod c.toNat 16
        omega
      rw [Option.map_some']
      rw [hv, Char.ofNat_toNat]
    · -- raw character (in particular every non-ASCII character)
      rw [List.cons_append, List.nil_append, lexStr_raw c h1 h2, ih]
      rfl

/-! ## Lexer length lemmas -/

theorem lexStr_length :
    ∀ n (l : List Char), l.length ≤ n → ∀ s rest, lexStr l = some (s, rest) →
      rest.length < l.length := by
  intro n
  induction n with
  | zero =>
    intro l hl s rest h
    rw [List.length_eq_zero.mp (Nat.le_zero.mp hl)] at h
    cases h
  | succ n ih =>
    intro l hl s rest h
    cases l with
    | nil => cases h
    | cons c cs =>
      simp only [List.length_cons] at hl
      rw [lexStr.eq_def] at h
      try dsimp only [] at h
      by_cases h1 : c = '"'
      · rw [if_pos h1] at h
        cases h
        simp
      · rw [if_neg h1] at h
        by_cases h2 : c = '\\'
        · rw [if_pos h2] at h
          cases cs with
          | nil => cases h
          | cons e cs' =>
            simp only [List.length_cons] at hl
            try dsimp only [] at h
            by_cases hu : e = 'u'
            · rw [if_pos hu] at h
              rcases cs' with _ | ⟨a1, cs1⟩
              · cases h
              rcases cs1 with _ | ⟨a2, cs2⟩
              · cases h
              rcases cs2 with _ | ⟨a3, cs3⟩
              · cases h
              rcases cs3 with _ | ⟨a4, cs4⟩
              · cases h
              rw [Option.map_eq_some'] at h
              obtain ⟨⟨s', rest'⟩, ho, heq⟩ := h
              have hr : rest = rest' := by simpa using (congrArg Prod.snd heq).symm
              subst hr
              simp only [List.length_cons] at hl
              have := ih cs4 (by omega) s' rest ho
              simp only [List.length_cons]
              omega
            · rw [if_neg hu] at h
              rcases hd : decodeEsc e with _ | dc <;> rw [hd] at h
              · cases h
              · rw [Option.map_eq_some'] at h
                obtain ⟨⟨s', rest'⟩, ho, heq⟩ := h
                have hr : rest = rest' := by simpa using (congrArg Prod.snd heq).symm
                subst hr
                have := ih cs' (by omega) s' rest ho
                simp only [List.length_cons]
                omega
        · rw [if_neg h2] at h
          rw [Option.map_eq_some'] at h
          obtain ⟨⟨s', rest'⟩, ho, heq⟩ := h
          have hr : rest = rest' := by simpa using (congrArg Prod.snd heq).symm
          subst hr
          have := ih cs (by omega) s' rest ho
          simp only [List.length_cons]
          omega

theorem lexNumCore_length (l : List Char) (q : ℚ) (rest : List Char)
    (h : lexNumCore l = some (q, rest)) : rest.length < l.length := by
  rw [lexNumCore.eq_def] at h
  rcases hsp : l.span Char.isDigit with ⟨ds, r2⟩
  rw [hsp] at h
  try dsimp only [] at h
  have hspan := List.span_eq_take_drop Char.isDigit l
  rw [hsp] at hspan
  have e1 : ds = l.takeWhile Char.isDigit := congrArg Prod.fst hspan
  have e2 : r2 = l.dropWhile Char.isDigit := congrArg Prod.snd hspan
  have hsc : ds.length + r2.length = l.length := by
    have h2 := congrArg List.length (List.takeWhile_append_dropWhile Char.isDigit l)
    rw [List.length_append] at h2
    rw [e1, e2]
    exact h2
  by_cases hde : ds.isEmpty
  · rw [if_pos hde] at h
    cases h
  · rw [if_neg hde] at h
    have hds : ds ≠ [] := by
      intro hc
      rw [hc] at hde
      simp at hde
    have hdslen : 0 < ds.length := List.length_pos.mpr hds
    rcases r2 with _ | ⟨c2, l3⟩
    · try dsimp only [] at h
      cases h
      simp only [List.length_nil] at hsc ⊢
      omega
    · try dsimp only [] at h
      simp only [List.length_cons] at hsc
      by_cases hdot : c2 = '.'
      · rw [if_pos hdot] at h
        rcases hsp2 : l3.span Char.isDigit with ⟨fs, rest2⟩
        rw [hsp2] at h
        try dsimp only [] at h
        have hspan2 := List.span_eq_take_drop Char.isDigit l3
        rw [hsp2] at hspan2
        have hsc2 : fs.length + rest2.length = l3.length := by
          have hh := congrArg List.length (List.takeWhile_append_dropWhile Char.isDigit l3)
          rw [List.length_append] at hh
          have ef : fs = List.takeWhile Char.isDigit l3 := by
            have := congrArg Prod.fst hspan2
            simpa using this
          have er : rest2 = List.dropWhile Char.isDigit l3 := by
            have := congrArg Prod.snd hspan2
            simpa using this
          rw [ef, er]
          exact hh
        by_cases hfe : fs.isEmpty
        · rw [if_pos hfe] at h
          cases h
        · rw [if_neg hfe] at h
          cases h
          omega
      · rw [if_neg hdot] at h
        cases h
        simp only [List.length_cons]
        omega

theorem lexNum_length (l : List Char) (q : ℚ) (rest : List Char)
    (h : lexNum l = some (q, rest)) : rest.length < l.length := by
  cases l with
  | nil => cases h
  | cons c cs =>
    rw [lexNum.eq_def] at h
    try dsimp only [] at h
    by_cases hm : c = '-'
    · rw [if_pos hm] at h
      rw [Option.map_eq_some'] at h
      obtain ⟨⟨q', rest'⟩, ho, heq⟩ := h
      have hr : rest = rest' := by simpa using (congrArg Prod.snd heq).symm
      subst hr
      have := lexNumCore_length cs q' rest ho
      simp only [List.length_cons]
      omega
    · rw [if_neg hm] at h
      exact lexNumCore_length (c :: cs) q rest h

/-! ## Tokenizer lemmas -/

theorem tokenizeF_succ_cons (fuel : Nat) (c : Char) (cs : List Char) :
    tokenizeF (fuel + 1) (c :: cs) =
      if isJsonWs c then tokenizeF fuel cs
      else if c = '\x7b' then (tokenizeF fuel cs).map (Tok.lbrace :: ·)
      else if c = '\x7d' then (tokenizeF fuel cs).map (Tok.rbrace :: ·)
      else if c = '[' then (tokenizeF fuel cs).map (Tok.lbrack :: ·)
      else if c = ']' then (tokenizeF fuel cs).map (Tok.rbrack :: ·)
      else if c = ':' then (tokenizeF fuel cs).map (Tok.colon :: ·)
      else if c = ',' then (tokenizeF fuel cs).map (Tok.comma :: ·)
      else if c = '"' then
        match lexStr cs with
        | some (s, rest) => (tokenizeF fuel rest).map (Tok.jstr s :: ·)
        | none => none
      else if (c = '-' || c.isDigit) then
        match lexNum (c :: cs) with
        | some (q, rest) => (tokenizeF fuel rest).map (Tok.jnum q :: ·)
        | none => none
      else if c = 'n' then
        if cs.take 3 = ['u', 'l', 'l'] then (tokenizeF fuel (cs.drop 3)).map (Tok.jnull :: ·)
        else none
      else if c = 't' then
        if cs.take 3 = ['r', 'u', 'e'] then (tokenizeF fuel (cs.drop 3)).map (Tok.jtrue :: ·)
        else none
      else if c = 'f' then
        if cs.take 4 = ['a', 'l', 's', 'e'] then (tokenizeF fuel (cs.drop 4)).map (Tok.jfalse :: ·)
        else none
      else none := rfl

theorem tokenizeF_stable :
    ∀ f g (l : List Char), l.length ≤ f → l.length ≤ g → tokenizeF f l = tokenizeF g l := by
  intro f
  induction f with
  | zero =>
    intro g l hf _
    rw [List.length_eq_zero.mp (Nat.le_zero.mp hf)]
    cases g <;> rfl
  | succ f ih =>
    intro g l hf hg
    cases l with
    | nil => cases g <;> rfl
    | cons c cs =>
      cases g with
      | zero => simp at hg
      | succ g =>
        simp only [List.length_cons] at hf hg
        rw [tokenizeF_succ_cons f c cs, tokenizeF_succ_cons g c cs]
        by_cases hws : isJsonWs c
        · rw [if_pos hws, if_pos hws]
          exact ih g cs (by omega) (by omega)
        rw [if_neg hws, if_neg hws]
        by_cases h1 : c = '\x7b'
        · rw [if_pos h1, if_pos h1, ih g cs (by omega) (by omega)]
        rw [if_neg h1, if_neg h1]
        by_cases h2 : c = '\x7d'
        · rw [if_pos h2, if_pos h2, ih g cs (by omega) (by omega)]
        rw [if_neg h2, if_neg h2]
        by_cases h3 : c = '['
        · rw [if_pos h3, if_pos h3, ih g cs (by omega) (by omega)]
        rw [if_neg h3, if_neg h3]
        by_cases h4 : c = ']'
        · rw [if_pos h4, if_pos h4, ih g cs (by omega) (by omega)]
        rw [if_neg h4, if_neg h4]
        by_cases h5 : c = ':'
        · rw [if_pos h5, if_pos h5, ih g cs (by omega) (by omega)]
        rw [if_neg h5, if_neg h5]
        by_cases h6 : c = ','
        · rw [if_pos h6, if_pos h6, ih g cs (by omega) (by omega)]
        rw [if_neg h6, if_neg h6]
        by_cases h7 : c = '"'
        · rw [if_pos h7, if_pos h7]
          rcases ho : lexStr cs with _ | ⟨s, rest⟩
          · rfl
          · have hlen := lexStr_length cs.length cs le_rfl s rest ho
            try dsimp only []
            rw [ih g rest (by omega) (by omega)]
        rw [if_neg h7, if_neg h7]
        by_cases h8 : (c = '-' || c.isDigit) = true
        · rw [if_pos h8, if_pos h8]
          rcases ho : lexNum (c :: cs) with _ | ⟨q, rest⟩
          · rfl
          · have hlen := lexNum_length (c :: cs) q rest ho
            simp only [List.length_cons] at hlen
            try dsimp only []
            rw [ih g rest (by omega) (by omega)]
        rw [if_neg h8, if_neg h8]
        by_cases h9 : c = 'n'
        · rw [if_pos h9, if_pos h9]
          by_cases hk : cs.take 3 = ['u', 'l', 'l']
          · rw [if_pos hk, if_pos hk,
              ih g (cs.drop 3) (by simp [List.length_drop]; omega)
                (by simp [List.length_drop]; omega)]
          · rw [if_neg hk, if_neg hk]
        rw [if_neg h9, if_neg h9]
        by_cases h10 : c = 't'
        · rw [if_pos h10, if_pos h10]
          by_cases hk : cs.take 3 = ['r', 'u', 'e']
          · rw [if_pos hk, if_pos hk,
              ih g (cs.drop 3) (by simp [List.length_drop]; omega)
                (by simp [List.length_drop]; omega)]
          · rw [if_neg hk, if_neg hk]
        rw [if_neg h10, if_neg h10]
        by_cases h11 : c = 'f'
        · rw [if_pos h11, if_pos h11]
          by_cases hk : cs.take 4 = ['a', 'l', 's', 'e']
          · rw [if_pos hk, if_pos hk,
              ih g (cs.drop 4) (by simp [List.length_drop]; omega)
                (by simp [List.length_drop]; omega)]
          · rw [if_neg hk, if_neg hk]
        rw [if_neg h11, if_neg h11]

theorem tokenize_cons_ws (c : Char) (hc : isJsonWs c = true) (l : List Char) :
    tokenize (c :: l) = tokenize l := by
  show tokenizeF (c :: l).length (c :: l) = tokenize l
  rw [List.length_cons, tokenizeF_succ_cons]
  rw [if_pos hc]
  rfl

theorem tokenize_ws_prefix (ws : List Char) (hws : ∀ c ∈ ws, isJsonWs c = true)
    (l : List Char) : tokenize (ws ++ l) = tokenize l := by
  induction ws with
  | nil => rfl
  | cons c cs ih =>
    rw [List.cons_append, tokenize_cons_ws c (hws c (by simp)),
      ih (fun x hx => hws x (by simp [hx]))]

theorem tokenize_jindent (d : Nat) (l : List Char) :
    tokenize (jindent d ++ l) = tokenize l := by
  apply tokenize_ws_prefix
  intro c hc
  rw [List.eq_of_mem_replicate hc]
  rfl

theorem tokenize_lbrace (l : List Char) :
    tokenize ('\x7b' :: l) = (tokenize l).map (Tok.lbrace :: ·) := by
  show tokenizeF ('\x7b' :: l).length ('\x7b' :: l) = _
  rw [List.length_cons, tokenizeF_succ_cons, if_neg (by decide), if_pos rfl]
  rfl

theorem tokenize_rbrace (l : List Char) :
    tokenize ('\x7d' :: l) = (tokenize l).map (Tok.rbrace :: ·) := by
  show tokenizeF ('\x7d' :: l).length ('\x7d' :: l) = _
  rw [List.length_cons, tokenizeF_succ_cons, if_neg (by decide), if_neg (by decide),
    if_pos rfl]
  rfl

theorem tokenize_lbrack (l : List Char) :
    tokenize ('[' :: l) = (tokenize l).map (Tok.lbrack :: ·) := by
  show tokenizeF ('[' :: l).length ('[' :: l) = _
  rw [List.length_cons, tokenizeF_succ_cons, if_neg (by decide), if_neg (by decide),
    if_neg (by decide), if_pos rfl]
  rfl

theorem tokenize_rbrack (l : List Char) :
    tokenize (']' :: l) = (tokenize l).map (Tok.rbrack :: ·) := by
  show tokenizeF (']' :: l).length (']' :: l) = _
  rw [List.length_cons, tokenizeF_succ_cons, if_neg (by decide), if_neg (by decide),
    if_neg (by decide), if_neg (by decide), if_pos rfl]
  rfl

theorem tokenize_colon (l : List Char) :
    tokenize (':' :: l) = (tokenize l).map (Tok.colon :: ·) := by
  show tokenizeF (':' :: l).length (':' :: l) = _
  rw [List.length_cons, tokenizeF_succ_cons, if_neg (by decide), if_neg (by decide),
    if_neg (by decide), if_neg (by decide), if_neg (by decide), if_pos rfl]
  rfl

theorem tokenize_comma (l : List Char) :
    tokenize (',' :: l) = (tokenize l).map (Tok.comma :: ·) := by
  show tokenizeF (',' :: l).length (',' :: l) = _
  rw [List.length_cons, tokenizeF_succ_cons, if_neg (by decide), if_neg (by decide),
    if_neg (by decide), if_neg (by decide), if_neg (by decide), if_neg (by decide),
    if_pos rfl]
  rfl

theorem tokenize_string (body s rest : List Char) (hlex : lexStr body = some (s, rest)) :
    tokenize ('"' :: body) = (tokenize rest).map (Tok.jstr s :: ·) := by
  show tokenizeF ('"' :: body).length ('"' :: body) = _
  rw [List.length_cons, tokenizeF_succ_cons, if_neg (by decide), if_neg (by decide),
    if_neg (by decide), if_neg (by decide), if_neg (by decide), if_neg (by decide),
    if_neg (by decide), if_pos rfl, hlex]
  have hlen := lexStr_length body.length body le_rfl s rest hlex
  try dsimp only []
  rw [tokenizeF_stable body.length rest.length rest (by omega) le_rfl]
  rfl

theorem isDigit_not_special (c : Char) (h : c.isDigit = true) :
    isJsonWs c = false ∧ ¬(c = '\x7b') ∧ ¬(c = '\x7d') ∧ ¬(c = '[') ∧ ¬(c = ']') ∧
      ¬(c = ':') ∧ ¬(c = ',') ∧ ¬(c = '"') := by
  have hws : isJsonWs c = false := by
    rw [isJsonWs]
    have h1 : ¬(c = ' ') := fun he => by subst he; simp at h
    have h2 : ¬(c = '\t') := fun he => by subst he; simp at h
    have h3 : ¬(c = '\n') := fun he => by subst he; simp at h
    have h4 : ¬(c = '\r') := fun he => by subst he; simp at h
    simp [h1, h2, h3, h4]
  refine ⟨hws, ?_, ?_, ?_, ?_, ?_, ?_, ?_⟩ <;>
    exact fun he => by subst he; simp at h

theorem tokenize_number (c : Char) (cs : List Char) (q : ℚ) (rest : List Char)
    (hc : c = '-' ∨ c.isDigit = true) (hlex : lexNum (c :: cs) = some (q, rest)) :
    tokenize (c :: cs) = (tokenize rest).map (Tok.jnum q :: ·) := by
  obtain ⟨hws, h1, h2, h3, h4, h5, h6, h7⟩ :
      isJsonWs c = false ∧ ¬(c = '\x7b') ∧ ¬(c = '\x7d') ∧ ¬(c = '[') ∧ ¬(c = ']') ∧
        ¬(c = ':') ∧ ¬(c = ',') ∧ ¬(c = '"') := by
    rcases hc with rfl | hd
    · exact ⟨by decide, by decide, by decide, by decide, by decide, by decide, by decide,
        by decide⟩
    · exact isDigit_not_special c hd
  have hcond : (c = '-' || c.isDigit) = true := by
    rcases hc with rfl | hd
    · simp
    · simp [hd]
  show tokenizeF (c :: cs).length (c :: cs) = _
  rw [List.length_cons, tokenizeF_succ_cons, if_neg (by simp [hws]), if_neg h1, if_neg h2,
    if_neg h3, if_neg h4, if_neg h5, if_neg h6, if_neg h7, if_pos hcond, hlex]
  have hlen := lexNum_length (c :: cs) q rest hlex
  simp only [List.length_cons] at hlen
  try dsimp only []
  rw [tokenizeF_stable cs.length rest.length rest (by omega) le_rfl]
  rfl

theorem tokenize_null (l : List Char) :
    tokenize ('n' :: 'u' :: 'l' :: 'l' :: l) = (tokenize l).map (Tok.jnull :: ·) := by
  show tokenizeF ('n' :: 'u' :: 'l' :: 'l' :: l).length ('n' :: 'u' :: 'l' :: 'l' :: l) = _
  simp only [List.length_cons]
  rw [tokenizeF_succ_cons, if_neg (by decide), if_neg (by decide), if_neg (by decide),
    if_neg (by decide), if_neg (by decide), if_neg (by decide), if_neg (by decide),
    if_neg (by decide), if_neg (by decide), if_pos rfl, if_pos (by rfl)]
  simp only [List.drop_succ_cons, List.drop_zero]
  rw [tokenizeF_stable (l.length + 3) l.length l (by omega) le_rfl]
  rfl

/-! ## Round-trip lemmas for each JSON value form -/

theorem RT_null : RT .null := by
  refine ⟨[Tok.jnull], ?_, ?_, Tok.jnull, [], rfl, by decide, by decide⟩
  · intro d rest _
    have hrv : renderVal d .null = 'n' :: 'u' :: 'l' :: 'l' :: [] := by simp [renderVal]
    rw [hrv]
    simp only [List.cons_append, List.nil_append]
    rw [tokenize_null]
  · intro f rest hf
    rcases f with _ | f
    · omega
    · show parseVal (f + 1) (Tok.jnull :: rest) = some (.null, rest)
      simp only [parseVal]

theorem RT_num (q : ℚ) (h : FinDec q) : RT (.num q) := by
  refine ⟨[Tok.jnum q], ?_, ?_, ?_⟩
  case refine_3 =>
    refine ⟨Tok.jnum q, [], rfl, ?_, ?_⟩ <;> intro hh <;> cases hh
  · intro d rest hb
    have hrv : renderVal d (.num q) = renderNum q := by simp [renderVal]
    rw [hrv]
    have hlex := lexNum_renderNum q h rest hb
    rcases hh : renderNum q with _ | ⟨c, cs⟩
    · exfalso
      rw [renderNum] at hh
      by_cases hq : q < 0
      · rw [if_pos hq] at hh
        cases hh
      · rw [if_neg hq] at hh
        exact renderPos_ne_nil q hh
    · rw [hh] at hlex
      rw [List.cons_append] at hlex ⊢
      have hc : c = '-' ∨ c.isDigit = true := by
        rw [renderNum] at hh
        by_cases hq : q < 0
        · rw [if_pos hq] at hh
          left
          exact (List.cons.injEq _ _ _ _ |>.mp hh.symm).1
        · rw [if_neg hq] at hh
          right
          exact renderPos_head_digit q c (by rw [hh]; rfl)
      rw [tokenize_number c (cs ++ rest) q rest hc hlex]
      rcases tokenize rest with _ | tks <;> rfl
  · intro f rest hf
    rcases f with _ | f
    · omega
    · show parseVal (f + 1) (Tok.jnum q :: rest) = some (.num q, rest)
      simp only [parseVal]

theorem RT_str (s : List Char) : RT (.str s) := by
  refine ⟨[Tok.jstr s], ?_, ?_, ?_⟩
  case refine_3 =>
    refine ⟨Tok.jstr s, [], rfl, ?_, ?_⟩ <;> intro hh <;> cases hh
  · intro d rest _
    have hrv : renderVal d (.str s) = renderStr s := by simp [renderVal]
    rw [hrv, renderStr]
    simp only [List.cons_append, List.append_assoc, List.singleton_append, List.nil_append]
    rw [tokenize_string (escStr s ++ '"' :: rest) s rest (lexStr_escStr s rest)]
  · intro f rest hf
    rcases f with _ | f
    · omega
    · show parseVal (f + 1) (Tok.jstr s :: rest) = some (.str s, rest)
      simp only [parseVal]

theorem RT_items : ∀ (ws : List JValue) (v : JValue), RT v → (∀ w ∈ ws, RT w) →
    ∃ tks : List Tok,
      (∀ d rest, Boundary rest →
        tokenize (renderItems d v ws ++ rest) = (tokenize rest).map (tks ++ ·)) ∧
      (∀ f rest, tks.length + 1 < f →
        parseItems f (tks ++ Tok.rbrack :: rest) = some (v :: ws, rest)) ∧
      ∃ t ts', tks = t :: ts' ∧ t ≠ Tok.rbrack ∧ t ≠ Tok.rbrace := by
  intro ws
  induction ws with
  | nil =>
    intro v hv _
    obtain ⟨tksV, htokV, hparseV, t, ts', hts, htr, htb⟩ := hv
    refine ⟨tksV, ?_, ?_, t, ts', hts, htr, htb⟩
    · intro d rest hb
      have hri : renderItems d v [] = jindent d ++ renderVal d v := by simp [renderItems]
      rw [hri, List.append_assoc, tokenize_jindent, htokV d rest hb]
    · intro f rest hf
      rcases f with _ | f
      · omega
      · simp only [parseItems]
        rw [hparseV f (Tok.rbrack :: rest) (by omega)]
  | cons w ws2 ih =>
    intro v hv hws
    obtain ⟨tksV, htokV, hparseV, t, ts', hts, htr, htb⟩ := hv
    obtain ⟨tksI, htokI, hparseI, hheadI⟩ :=
      ih w (hws w (by simp)) (fun x hx => hws x (by simp [hx]))
    refine ⟨tksV ++ Tok.comma :: tksI, ?_, ?_, t, ts' ++ Tok.comma :: tksI,
      by rw [hts]; rfl, htr, htb⟩
    · intro d rest hb
      have hri : renderItems d v (w :: ws2) =
          jindent d ++ renderVal d v ++ ',' :: '\n' :: renderItems d w ws2 := by
        simp [renderItems]
      rw [hri]
      simp only [List.append_assoc, List.cons_append]
      rw [tokenize_jindent]
      rw [htokV d _ (by intro c hc; cases hc; exact ⟨by decide, by decide⟩)]
      rw [tokenize_comma, tokenize_cons_ws '\n' (by decide), htokI d rest hb]
      rcases tokenize rest with _ | tks <;> simp [List.append_assoc]
    · intro f rest hf
      simp only [List.length_append, List.length_cons] at hf
      rcases f with _ | f
      · omega
      · simp only [parseItems]
        rw [List.append_assoc, List.cons_append,
          hparseV f (Tok.comma :: (tksI ++ Tok.rbrack :: rest)) (by omega)]
        try dsimp only []
        rw [hparseI f rest (by omega)]
        rfl

theorem RT_arr (vs : List JValue) (h : ∀ v ∈ vs, RT v) : RT (.arr vs) := by
  cases vs with
  | nil =>
    refine ⟨[Tok.lbrack, Tok.rbrack], ?_, ?_, Tok.lbrack, [Tok.rbrack], rfl,
      by decide, by decide⟩
    · intro d rest _
      have hrv : renderVal d (.arr []) = '[' :: [']'] := by simp [renderVal]
      rw [hrv]
      simp only [List.cons_append, List.singleton_append, List.nil_append]
      rw [tokenize_lbrack, tokenize_rbrack]
      rcases tokenize rest with _ | tks <;> rfl
    · intro f rest hf
      rcases f with _ | f
      · omega
      · show parseVal (f + 1) (Tok.lbrack :: Tok.rbrack :: rest) = some (.arr [], rest)
        simp only [parseVal]
        rw [if_pos (by rfl)]
        rfl
  | cons v ws =>
    obtain ⟨tksI, htokI, hparseI, t, ts', hts, htr, htb⟩ :=
      RT_items ws v (h v (by simp)) (fun w hw => h w (by simp [hw]))
    refine ⟨Tok.lbrack :: tksI ++ [Tok.rbrack], ?_, ?_, Tok.lbrack, tksI ++ [Tok.rbrack],
      rfl, by decide, by decide⟩
    · intro d rest hb
      have hrv : renderVal d (.arr (v :: ws)) =
          '[' :: '\n' :: (renderItems (d + 1) v ws ++ '\n' :: (jindent d ++ [']'])) := by
        simp [renderVal]
      rw [hrv]
      simp only [List.cons_append, List.append_assoc, List.singleton_append, List.nil_append]
      rw [tokenize_lbrack, tokenize_cons_ws '\n' (by decide)]
      rw [htokI (d + 1) _ (by intro c hc; cases hc; exact ⟨by decide, by decide⟩)]
      rw [tokenize_cons_ws '\n' (by decide), tokenize_jindent, tokenize_rbrack]
      rcases tokenize rest with _ | tks <;> simp [List.append_assoc]
    · intro f rest hf
      simp only [List.length_append, List.length_cons] at hf
      rcases f with _ | f
      · omega
      · show parseVal (f + 1) ((Tok.lbrack :: tksI ++ [Tok.rbrack]) ++ rest) = _
        simp only [List.cons_append, List.append_assoc, List.singleton_append, List.nil_append]
        simp only [parseVal]
        rw [if_neg (by simp [hts, htr])]
        rw [hparseI f rest (by omega)]
        rfl

theorem tokenize_renderStr (k : List Char) (rest : List Char) :
    tokenize (renderStr k ++ rest) = (tokenize rest).map (Tok.jstr k :: ·) := by
  rw [renderStr]
  simp only [List.cons_append, List.append_assoc, List.singleton_append, List.nil_append]
  rw [tokenize_string (escStr k ++ '"' :: rest) k rest (lexStr_escStr k rest)]

theorem RT_fields : ∀ (fs : List (List Char × JValue)) (k : List Char) (v : JValue),
    RT v → (∀ p ∈ fs, RT p.2) →
    ∃ tks : List Tok,
      (∀ d rest, Boundary rest →
        tokenize (renderFields d (k, v) fs ++ rest) = (tokenize rest).map (tks ++ ·)) ∧
      (∀ f rest, tks.length + 1 < f →
        parseMembers f (tks ++ Tok.rbrace :: rest) = some ((k, v) :: fs, rest)) ∧
      ∃ ts'', tks = Tok.jstr k :: ts'' := by
  intro fs
  induction fs with
  | nil =>
    intro k v hv _
    obtain ⟨tksV, htokV, hparseV, t, ts', hts, htr, htb⟩ := hv
    refine ⟨Tok.jstr k :: Tok.colon :: tksV, ?_, ?_, _, rfl⟩
    · intro d rest hb
      have hrf : renderFields d (k, v) [] =
          jindent d ++ renderStr k ++ ':' :: ' ' :: renderVal d v := by
        simp [renderFields]
      rw [hrf]
      simp only [List.append_assoc, List.cons_append, List.nil_append]
      rw [tokenize_jindent, tokenize_renderStr, tokenize_colon,
        tokenize_cons_ws ' ' (by decide), htokV d rest hb]
      rcases tokenize rest with _ | tks <;> rfl
    · intro f rest hf
      simp only [List.length_cons] at hf
      rcases f with _ | f
      · omega
      · show parseMembers (f + 1) ((Tok.jstr k :: Tok.colon :: tksV) ++ Tok.rbrace :: rest) = _
        simp only [List.cons_append, List.append_assoc, List.nil_append]
        simp only [parseMembers]
        rw [hparseV f (Tok.rbrace :: rest) (by omega)]
  | cons p fs2 ih =>
    intro k v hv hfs
    obtain ⟨tksV, htokV, hparseV, t, ts', hts, htr, htb⟩ := hv
    obtain ⟨tksF, htokF, hparseF, hheadF⟩ :=
      ih p.1 p.2 (hfs p (by simp)) (fun x hx => hfs x (by simp [hx]))
    refine ⟨Tok.jstr k :: Tok.colon :: tksV ++ Tok.comma :: tksF, ?_, ?_, _, rfl⟩
    · intro d rest hb
      have hrf : renderFields d (k, v) (p :: fs2) =
          jindent d ++ renderStr k ++ ':' :: ' ' :: renderVal d v ++
            ',' :: '\n' :: renderFields d (p.1, p.2) fs2 := by
        rcases p with ⟨k2, v2⟩
        simp [renderFields]
      rw [hrf]
      simp only [List.append_assoc, List.cons_append, List.nil_append]
      rw [tokenize_jindent, tokenize_renderStr, tokenize_colon,
        tokenize_cons_ws ' ' (by decide)]
      rw [htokV d _ (by intro c hc; cases hc; exact ⟨by decide, by decide⟩)]
      rw [tokenize_comma, tokenize_cons_ws '\n' (by decide)]
      rw [htokF d rest hb]
      rcases tokenize rest with _ | tks <;> simp [List.append_assoc]
    · intro f rest hf
      simp only [List.length_cons, List.length_append] at hf
      rcases f with _ | f
      · omega
      · show parseMembers (f + 1)
          ((Tok.jstr k :: Tok.colon :: tksV ++ Tok.comma :: tksF) ++ Tok.rbrace :: rest) = _
        simp only [List.cons_append, List.append_assoc, List.nil_append]
        simp only [parseMembers]
        rw [hparseV f (Tok.comma :: (tksF ++ Tok.rbrace :: rest)) (by omega)]
        try dsimp only []
        have hpf := hparseF f rest (by omega)
        have hp2 : p = (p.1, p.2) := rfl
        rw [← hp2] at hpf
        rw [hpf]
        rfl

theorem RT_obj (fs : List (List Char × JValue)) (h : ∀ p ∈ fs, RT p.2) : RT (.obj fs) := by
  cases fs with
  | nil =>
    refine ⟨[Tok.lbrace, Tok.rbrace], ?_, ?_, Tok.lbrace, [Tok.rbrace], rfl,
      by decide, by decide⟩
    · intro d rest _
      have hrv : renderVal d (.obj []) = '\x7b' :: ['\x7d'] := by simp [renderVal]
      rw [hrv]
      simp only [List.cons_append, List.singleton_append, List.nil_append]
      rw [tokenize_lbrace, tokenize_rbrace]
      rcases tokenize rest with _ | tks <;> rfl
    · intro f rest hf
      rcases f with _ | f
      · omega
      · show parseVal (f + 1) (Tok.lbrace :: Tok.rbrace :: rest) = some (.obj [], rest)
        simp only [parseVal]
        rw [if_pos (by rfl)]
        rfl
  | cons p fs2 =>
    obtain ⟨tksF, htokF, hparseF, ts'', hts⟩ :=
      RT_fields fs2 p.1 p.2 (h p (by simp)) (fun x hx => h x (by simp [hx]))
    refine ⟨Tok.lbrace :: tksF ++ [Tok.rbrace], ?_, ?_, Tok.lbrace, tksF ++ [Tok.rbrace],
      rfl, by decide, by decide⟩
    · intro d rest hb
      have hrv : renderVal d (.obj (p :: fs2)) =
          '\x7b' :: '\n' :: (renderFields (d + 1) p fs2 ++ '\n' :: (jindent d ++ ['\x7d'])) := by
        rcases p with ⟨k2, v2⟩
        simp [renderVal]
      rw [hrv]
      simp only [List.cons_append, List.append_assoc, List.singleton_append, List.nil_append]
      rw [tokenize_lbrace, tokenize_cons_ws '\n' (by decide)]
      have hrp : renderFields (d + 1) p fs2 = renderFields (d + 1) (p.1, p.2) fs2 := by
        rcases p with ⟨k2, v2⟩
        rfl
      rw [hrp, htokF (d + 1) _ (by intro c hc; cases hc; exact ⟨by decide, by decide⟩)]
      rw [tokenize_cons_ws '\n' (by decide), tokenize_jindent, tokenize_rbrace]
      rcases tokenize rest with _ | tks <;> simp [List.append_assoc]
    · intro f rest hf
      simp only [List.length_append, List.length_cons] at hf
      rcases f with _ | f
      · omega
      · show parseVal (f + 1) ((Tok.lbrace :: tksF ++ [Tok.rbrace]) ++ rest) = _
        simp only [List.cons_append, List.append_assoc, List.singleton_append, List.nil_append]
        simp only [parseVal]
        rw [if_neg (by simp [hts])]
        have hpf := hparseF f rest (by omega)
        have hp2 : p = (p.1, p.2) := rfl
        rw [← hp2] at hpf
        rw [hpf]
        rfl

/-! ## Round trip for the dict shapes produced by `to_dict` -/

theorem RT_word (w : WordTimestamp) (h1 : FinDec w.start) (h2 : FinDec w.end_) :
    RT w.to_dict := by
  rw [WordTimestamp.to_dict]
  apply RT_obj
  intro p hp
  simp only [List.mem_cons, List.not_mem_nil, or_false] at hp
  rcases hp with rfl | rfl | rfl
  · exact RT_num _ h1
  · exact RT_num _ h2
  · exact RT_str _

theorem RT_seg (seg : TranscriptSegment) (h1 : FinDec seg.start) (h2 : FinDec seg.end_)
    (hw : ∀ w ∈ seg.words.getD [], FinDec w.start ∧ FinDec w.end_) :
    RT seg.to_dict := by
  rw [TranscriptSegment.to_dict]
  apply RT_obj
  intro p hp
  rcases hws : seg.words with _ | ws
  · rw [hws] at hp
    simp only [List.mem_append, List.mem_cons, List.not_mem_nil, or_false] at hp
    rcases hp with rfl | rfl | rfl
    · exact RT_num _ h1
    · exact RT_num _ h2
    · exact RT_str _
  · rw [hws] at hp
    simp only [List.mem_append, List.mem_cons, List.not_mem_nil, or_false] at hp
    rcases hp with (rfl | rfl | rfl) | rfl
    · exact RT_num _ h1
    · exact RT_num _ h2
    · exact RT_str _
    · apply RT_arr
      intro v hv
      simp only [List.mem_map] at hv
      obtain ⟨w2, hw2, rfl⟩ := hv
      have hfd := hw w2 (by rw [hws]; simpa using hw2)
      exact RT_word w2 hfd.1 hfd.2

theorem RT_transcript (t : Transcript) (h : TranscriptFinDec t) : RT t.to_dict := by
  rw [Transcript.to_dict]
  apply RT_obj
  intro p hp
  simp only [List.mem_cons, List.not_mem_nil, or_false] at hp
  rcases hp with rfl | rfl
  · show RT (match t.language with | none => JValue.null | some s => JValue.str s)
    rcases t.language with _ | s
    · exact RT_null
    · exact RT_str s
  · apply RT_arr
    intro v hv
    simp only [List.mem_map] at hv
    obtain ⟨seg, hseg, rfl⟩ := hv
    obtain ⟨hs1, hs2, hsw⟩ := h seg hseg
    exact RT_seg seg hs1 hs2 hsw

theorem tokenize_nil : tokenize [] = some [] := rfl

theorem parseJSON_format_json (t : Transcript) (h : TranscriptFinDec t) :
    parseJSON (format_json t) = some t.to_dict := by
  obtain ⟨tks, htok, hparse, t0, ts0, hts, _, _⟩ := RT_transcript t h
  have h1 : tokenize (format_json t) = some tks := by
    have hh := htok 0 [] (by intro c hc; cases hc)
    rw [List.append_nil, tokenize_nil] at hh
    rw [format_json, hh]
    simp
  have h2 : parseVal (tks.length + 1) tks = some (t.to_dict, []) := by
    have hh := hparse (tks.length + 1) [] (by omega)
    rwa [List.append_nil] at hh
  simp only [parseJSON, h1, h2]

/-! ## Concrete rendering of the sample transcript -/

theorem renderNum_zero : renderNum 0 = ['0', '.', '0'] := by
  have hd : decExp (0 : ℚ) = some 0 :=
    decExp_eq_of 0 0 (by norm_num) (by norm_num) (by omega)
  have hn : ((0 : ℚ) * 10 ^ 0).num = 0 := by norm_num
  rw [renderNum, if_neg (by norm_num), renderPos]
  simp only [hd, Option.getD_some, hn]
  norm_num [natChars]

theorem renderNum_six_fifths : renderNum (6 / 5) = ['1', '.', '2'] := by
  have hden : ((6 : ℚ) / 5).den = 5 := by norm_num
  have hd : decExp ((6 : ℚ) / 5) = some 1 := by
    apply decExp_eq_of
    · omega
    · show ((6 : ℚ) / 5 * 10 ^ 1).den = 1
      norm_num
    · intro j hj
      interval_cases j
      simp only [pow_zero, mul_one, hden]
      omega
  have hn : ((6 : ℚ) / 5 * 10 ^ 1).num = 12 := by norm_num
  rw [renderNum, if_neg (by norm_num), renderPos]
  simp only [hd, Option.getD_some, hn]
  norm_num [natChars, natCharsAux, zpad, digitChar]
  decide

theorem format_json_example :
    format_json exTranscript =
      ("\x7b\n  \"language\": null,\n  \"segments\": [\n    \x7b\n      \"start\": 0.0,\n      \"end\": 1.2,\n      \"text\": \"hi\"\n    \x7d\n  ]\n\x7d").data := by
  simp only [format_json, exTranscript, Transcript.to_dict, TranscriptSegment.to_dict,
    List.map_cons, List.map_nil, List.append_nil]
  simp only [renderVal, renderItems, renderFields, renderStr, jindent, escStr]
  rw [renderNum_zero, renderNum_six_fifths]
  decide

theorem escChar_passthrough (c : Char) (h32 : 32 ≤ c.toNat) (hq : c ≠ '"')
    (hb : c ≠ '\\') : escChar c = [c] := by
  rw [escChar, if_neg hq, if_neg hb,
    if_neg (fun hh => by subst hh; exact absurd h32 (by decide)),
    if_neg (fun hh => by subst hh; exact absurd h32 (by decide)),
    if_neg (fun hh => by subst hh; exact absurd h32 (by decide)),
    if_neg (fun hh => by subst hh; exact absurd h32 (by decide)),
    if_neg (fun hh => by subst hh; exact absurd h32 (by decide)),
    if_neg (by omega)]

/-- C7: for every transcript whose floats have terminating decimal expansions
(every Python float does), parsing the JSON text produced by `format_json`
yields exactly `to_dict` of the transcript; the output is 2-space indented as
shown on the sample transcript; and every printable non-escape character —
non-ASCII included — passes through the string renderer literally. -/
theorem c7_json_round_trip :
    (∀ t : Transcript, TranscriptFinDec t →
      parseJSON (format_json t) = some t.to_dict) ∧
    format_json exTranscript =
      ("\x7b\n  \"language\": null,\n  \"segments\": [\n    \x7b\n      \"start\": 0.0,\n      \"end\": 1.2,\n      \"text\": \"hi\"\n    \x7d\n  ]\n\x7d").data ∧
    (∀ c : Char, 32 ≤ c.toNat → c ≠ '"' → c ≠ '\\' → escChar c = [c]) :=
  ⟨parseJSON_format_json, format_json_example, escChar_passthrough⟩

/-- Witness for C7 at a concrete transcript: the hypotheses are discharged
with explicit decimal exponents. -/
theorem c7_witness :
    TranscriptFinDec exTranscript ∧
      parseJSON (format_json exTranscript) = some exTranscript.to_dict := by
  have hfd : TranscriptFinDec exTranscript := by
    intro seg hseg
    simp only [exTranscript, List.mem_singleton] at hseg
    subst hseg
    refine ⟨⟨0, by norm_num, by norm_num⟩, ⟨1, by norm_num, by norm_num⟩, ?_⟩
    intro w hw
    simp at hw
  exact ⟨hfd, c7_json_round_trip.1 exTranscript hfd⟩

end VideoEditor
